import Mathlib

/-!
Shallow embedding of the generalized-Fibonacci memory allocator (mem.c,
64-bit configuration).

Memory is modelled as a total map from byte addresses to machine words
(`Mem := Nat → Nat`); the allocator only ever accesses word-aligned
addresses.  The address 0 plays the role of the C null pointer; `malloc`
is modelled by a monotone allocation cursor `nextAddr`, so distinct host
regions are disjoint and their initial contents are whatever the initial
memory function (the "garbage oracle") says, matching the fact that
`malloc` returns uninitialized bytes.

The free-list table (`struct array`) is kept as an abstract list of
cells (`size`, head pointer of the item list); in the C program the cell
array itself lives inside an engine-allocated block, which the model
keeps as an ordinary in-use block in memory (`dataArea` remembers its
area address so that the relocation path can free it), while the cell
contents are mirrored abstractly.

Loops without an obvious structural measure (`coalesce`, the ladder
extension do-while, and the mutual recursion between `mem_alloc`,
`array_inc_size` and `mem_free` created by the relocation path) take an
explicit fuel argument and return `none` when the fuel runs out, so
`some` results correspond exactly to terminating C executions.  The
linear search in `delete_item` is bounded by `nextAddr / 8`, which is
larger than the length of any chain of distinct allocated nodes; the C
original would loop forever on a cyclic garbage list, a case no claim
is concerned with.

Ghost fields (`chunks`, `relocations`, `cellZeroInserts`) record,
respectively, the arguments of the `alloc_new_item` calls, how many
times the cell array was relocated, and how many insertions targeted
cell 0.  They are write-only instrumentation and do not influence the
modelled computation.
-/

/-! ### Architecture constants (64-bit target) -/

def BLOCK_SIZE : Nat := 8
def WORD_SIZE : Nat := 8
def HEADER_SIZE : Nat := 8
def MIN_SIZE : Nat := 3
def SIZE_1 : Nat := 4
def SIZE_2 : Nat := 5
def SIZE_3 : Nat := 7
def DATA_INIT_BLOCKS : Nat := 69
def ARRAY_INIT_SIZE : Nat := 11
def ARRAY_INIT_CAPACITY : Nat := 16

/-! ### Header word codec

The header is one machine word: bits [3..64) hold the size in blocks,
bit 2 is `in_use`, bit 1 is `lr` (0 = LEFT, 1 = RIGHT), bit 0 is `inh`.
The setters reproduce the C `(w & ~mask) | bits` arithmetic for words
below `2 ^ 64`; `item_set_size_w` keeps the explicit `% 2 ^ 64` of the
C shift on `uintptr_t`. -/

def item_get_size_w (w : Nat) : Nat := w / 8

def item_set_size_w (w s : Nat) : Nat := w % 8 + 8 * s % 2 ^ 64

def item_is_in_use_w (w : Nat) : Bool := w / 4 % 2 == 1

def item_set_in_use_w (w : Nat) (b : Bool) : Nat :=
  w % 4 + w / 8 * 8 + (if b then 4 else 0)

def item_get_lr_bit_w (w : Nat) : Bool := w / 2 % 2 == 1

def item_set_lr_bit_w (w : Nat) (b : Bool) : Nat :=
  w % 2 + w / 4 * 4 + (if b then 2 else 0)

def item_get_inh_bit_w (w : Nat) : Bool := w % 2 == 1

def item_set_inh_bit_w (w : Nat) (b : Bool) : Nat :=
  w / 2 * 2 + (if b then 1 else 0)

/-! ### Memory

A memory is a base function (the contents the host memory has before
the allocator ever writes to it -- `malloc` hands back uninitialized
bytes, so this is arbitrary) together with the list of word writes the
allocator has performed, newest first. -/

structure Mem where
  base : Nat → Nat
  writes : List (Nat × Nat)

def rd (m : Mem) (a : Nat) : Nat :=
  match m.writes.find? (fun e => e.1 == a) with
  | some e => e.2
  | none => m.base a

def wr (m : Mem) (a v : Nat) : Mem := { m with writes := (a, v) :: m.writes }

def item_get_size (m : Mem) (a : Nat) : Nat := item_get_size_w (rd m a)

def item_set_size (m : Mem) (a s : Nat) : Mem :=
  wr m a (item_set_size_w (rd m a) s)

def item_is_in_use (m : Mem) (a : Nat) : Bool := item_is_in_use_w (rd m a)

def item_set_in_use (m : Mem) (a : Nat) (b : Bool) : Mem :=
  wr m a (item_set_in_use_w (rd m a) b)

def item_get_lr_bit (m : Mem) (a : Nat) : Bool := item_get_lr_bit_w (rd m a)

def item_set_lr_bit (m : Mem) (a : Nat) (b : Bool) : Mem :=
  wr m a (item_set_lr_bit_w (rd m a) b)

def item_get_inh_bit (m : Mem) (a : Nat) : Bool := item_get_inh_bit_w (rd m a)

def item_set_inh_bit (m : Mem) (a : Nat) (b : Bool) : Mem :=
  wr m a (item_set_inh_bit_w (rd m a) b)

def item_get_area (a : Nat) : Nat := a + WORD_SIZE

def item_from_area (p : Nat) : Nat := p - WORD_SIZE

def item_get_prev (m : Mem) (a : Nat) : Nat := rd m (a + 8)

def item_set_prev (m : Mem) (a p : Nat) : Mem := wr m (a + 8) p

def item_get_next (m : Mem) (a : Nat) : Nat := rd m (a + 16)

def item_set_next (m : Mem) (a p : Nat) : Mem := wr m (a + 16) p

/-! ### Cells and allocator state -/

structure Cell where
  size : Nat
  items : Nat
deriving DecidableEq

structure AllocState where
  mem : Mem
  data : List Cell
  capacity : Nat
  memList : Nat
  nextAddr : Nat
  dataArea : Nat
  chunks : List Nat
  relocations : Nat
  cellZeroInserts : Nat

def cellAt (st : AllocState) (i : Nat) : Cell := st.data.getD i ⟨0, 0⟩

def setItems (st : AllocState) (i : Nat) (p : Nat) : AllocState :=
  { st with data := st.data.set i ⟨(cellAt st i).size, p⟩ }

/-! ### Free-list operations -/

def take_item (st : AllocState) (i : Nat) : AllocState × Nat :=
  let item := (cellAt st i).items
  let next := item_get_next st.mem item
  let m1 := if next ≠ 0 then item_set_prev st.mem next 0 else st.mem
  (setItems { st with mem := m1 } i next, item)

def insert_item (st : AllocState) (i : Nat) (b : Nat) : AllocState :=
  let head := (cellAt st i).items
  let m1 := item_set_next st.mem b head
  let m2 := if head ≠ 0 then item_set_prev m1 head b else m1
  let st1 := setItems { st with mem := m2 } i b
  { st1 with
      mem := item_set_prev st1.mem b 0
      cellZeroInserts := st1.cellZeroInserts + (if i = 0 then 1 else 0) }

def delFind (m : Mem) (target curr bound : Nat) : Nat :=
  match bound with
  | 0 => 0
  | b + 1 =>
    if curr = 0 ∨ curr = target then curr
    else delFind m target (item_get_next m curr) b

def delete_item (st : AllocState) (i : Nat) (item : Nat) : AllocState :=
  let curr := delFind st.mem item (cellAt st i).items (st.nextAddr / 8)
  if curr ≠ 0 then
    let prev := item_get_prev st.mem curr
    let next := item_get_next st.mem curr
    let m1 := if prev ≠ 0 then item_set_next st.mem prev next else st.mem
    let m2 := if next ≠ 0 then item_set_prev m1 next prev else m1
    let st1 := { st with mem := m2 }
    if curr = (cellAt st i).items then setItems st1 i next else st1
  else st

/-! ### Splitter -/

/-- The eight header writes of one `split_item` iteration, in source
order; `inh_l`/`inh_r` are read from the parent before any write. -/
def splitWrite (m : Mem) (curr szl szr : Nat) : Mem :=
  let inh_l := item_get_lr_bit m curr
  let inh_r := item_get_inh_bit m curr
  let right := curr + szl * BLOCK_SIZE
  let m1 := item_set_size m curr szl
  let m2 := item_set_size m1 right szr
  let m3 := item_set_lr_bit m2 curr false
  let m4 := item_set_lr_bit m3 right true
  let m5 := item_set_in_use m4 curr false
  let m6 := item_set_in_use m5 right false
  let m7 := item_set_inh_bit m6 curr inh_l
  item_set_inh_bit m7 right inh_r

/-- The loop of `split_item`.  The fuel argument is only a structural
termination measure: the loop guard forces `4 < i` and each iteration
moves to `i - 4` or `i - 1`, so starting the fuel at `i` (as
`split_item` does) the fuel can only run out when `i = 0`, where the
guard fails anyway; `splitLoop` is therefore exactly the C loop. -/
def splitLoop (fuel : Nat) (st : AllocState) (i : Nat) (item n : Nat) :
    AllocState × Nat :=
  if n ≤ (cellAt st (i - 1)).size ∧ 4 < i then
    match fuel with
    | 0 => (st, item)
    | f + 1 =>
      let szl := (cellAt st (i - 4)).size
      let szr := (cellAt st (i - 1)).size
      let right := item + szl * BLOCK_SIZE
      let st1 := { st with mem := splitWrite st.mem item szl szr }
      if n ≤ szl then
        splitLoop f (insert_item st1 (i - 1) right) (i - 4) item n
      else
        splitLoop f (insert_item st1 (i - 4) item) (i - 1) right n
  else (st, item)

def split_item (st : AllocState) (i : Nat) (item n : Nat) :
    AllocState × Nat :=
  splitLoop i st i item n

/-! ### Chunk source -/

def alloc_new_item (st : AllocState) (n : Nat) : AllocState × Nat :=
  let tmp := st.nextAddr
  let m1 := wr st.mem tmp st.memList
  let fake := tmp + BLOCK_SIZE * n + WORD_SIZE
  let m2 := item_set_size m1 fake 0
  let m3 := item_set_lr_bit m2 fake true
  let m4 := item_set_in_use m3 fake true
  let item := tmp + WORD_SIZE
  let m5 := item_set_size m4 item n
  let m6 := item_set_lr_bit m5 item false
  ({ st with
      mem := m6
      memList := tmp
      nextAddr := tmp + BLOCK_SIZE * n + 2 * WORD_SIZE
      chunks := n :: st.chunks }, item)

/-! ### Buddy computation and coalescer -/

def item_get_buddy (st : AllocState) (item : Nat) (i : Nat) : Nat × Nat :=
  if item_get_lr_bit st.mem item = false then
    (item + item_get_size st.mem item * BLOCK_SIZE, i + 3)
  else
    (item - (cellAt st (i - 3)).size * BLOCK_SIZE, i - 3)

structure CoalArgs where
  st : AllocState
  i : Nat
  item : Nat
  buddy : Nat
  ibuddy : Nat

def coalesceCond (c : CoalArgs) : Bool :=
  !(item_is_in_use c.st.mem c.buddy) &&
    ((cellAt c.st c.ibuddy).size == item_get_size c.st.mem c.buddy)

/-- One iteration of the `coalesce` loop body, in source order. -/
def coalesceBody (c : CoalArgs) : CoalArgs :=
  let st1 := delete_item c.st c.i c.item
  let st2 := delete_item st1 c.ibuddy c.buddy
  let lrIsLeft := item_get_lr_bit st2.mem c.item = false
  let left := if lrIsLeft then c.item else c.buddy
  let right := if lrIsLeft then c.buddy else c.item
  let i2 := if lrIsLeft then c.i + 4 else c.i + 1
  let size := (cellAt st2 i2).size
  let lrb := item_get_inh_bit st2.mem left
  let inb := item_get_inh_bit st2.mem right
  let m1 := item_set_lr_bit st2.mem left lrb
  let m2 := item_set_inh_bit m1 left inb
  let m3 := item_set_size m2 left size
  let m4 := item_set_in_use m3 left false
  let st3 := { st2 with mem := m4 }
  let bp := item_get_buddy st3 left i2
  let st4 := insert_item st3 i2 left
  ⟨st4, i2, left, bp.1, bp.2⟩

def coalesceLoop (fuel : Nat) (c : CoalArgs) : Option CoalArgs :=
  if coalesceCond c = false then some c
  else
    match fuel with
    | 0 => none
    | f + 1 => coalesceLoop f (coalesceBody c)

/-- The entry configuration of `coalesce`: the current item is the head
of cell `i` and its buddy is computed from its header. -/
def coalesceEntry (st : AllocState) (i : Nat) : CoalArgs :=
  let item := (cellAt st i).items
  let bp := item_get_buddy st item i
  ⟨st, i, item, bp.1, bp.2⟩

def coalesce (fuel : Nat) (st : AllocState) (i : Nat) : Option CoalArgs :=
  coalesceLoop fuel (coalesceEntry st i)

/-- Iterating the loop body, used to phrase termination bounds. -/
def iterBody (k : Nat) (c : CoalArgs) : CoalArgs :=
  match k with
  | 0 => c
  | k + 1 => iterBody k (coalesceBody c)

/-! ### Public operations -/

def searchIdx (cells : List Cell) (n : Nat) : Nat :=
  match cells with
  | [] => 0
  | c :: rest => if n ≤ c.size ∧ c.items ≠ 0 then 0 else searchIdx rest n + 1

def mem_free (fuel : Nat) (st : AllocState) (p : Nat) : Option CoalArgs :=
  match fuel with
  | 0 => none
  | f + 1 =>
    let item := item_from_area p
    let size := item_get_size st.mem item
    match st.data.findIdx? (fun c => c.size == size) with
    | none => none
    | some i =>
      let st1 := { st with mem := item_set_in_use st.mem item false }
      let st2 := insert_item st1 i item
      coalesce f st2 i

mutual

def mem_alloc (fuel : Nat) (st : AllocState) (x : Nat) :
    Option (AllocState × Nat) :=
  match fuel with
  | 0 => none
  | f + 1 =>
    let n := (x + HEADER_SIZE + BLOCK_SIZE - 1) / BLOCK_SIZE
    let i := searchIdx st.data n
    if i = st.data.length then
      match extLoop f st (i - 1) n with
      | none => none
      | some r =>
        let a := alloc_new_item r.1 ((cellAt r.1 r.2).size % 2 ^ 32)
        let s := split_item a.1 r.2 a.2 n
        some ({ s.1 with mem := item_set_in_use s.1.mem s.2 true },
          item_get_area s.2)
    else
      let t := take_item st i
      let s := split_item t.1 i t.2 n
      some ({ s.1 with mem := item_set_in_use s.1.mem s.2 true },
        item_get_area s.2)

def extLoop (fuel : Nat) (st : AllocState) (i n : Nat) :
    Option (AllocState × Nat) :=
  match fuel with
  | 0 => none
  | f + 1 =>
    match array_inc_size f st with
    | none => none
    | some st1 =>
      if (cellAt st1 (i + 1)).size < n then extLoop f st1 (i + 1) n
      else some (st1, i + 1)

def array_inc_size (fuel : Nat) (st : AllocState) : Option AllocState :=
  match fuel with
  | 0 => none
  | f + 1 =>
    let i := st.data.length
    let newSize := (cellAt st (i - 1)).size + (cellAt st (i - 4)).size
    let st1 := { st with data := st.data ++ [⟨newSize, 0⟩] }
    if st1.data.length = st1.capacity then
      let st2 := { st1 with
          capacity := 2 * st1.capacity
          relocations := st1.relocations + 1 }
      let oldArea := st2.dataArea
      match mem_alloc f st2 (st2.capacity * 16) with
      | none => none
      | some r =>
        let st4 := { r.1 with dataArea := r.2 }
        match mem_free f st4 oldArea with
        | none => none
        | some c => some c.st
    else some st1

end

/-! ### Initialization -/

/-- The sizes written by `array_init`: the seed values followed by the
generalized Fibonacci recurrence `a(n) = a(n-1) + a(n-4)`. -/
def ladderSizes : Nat → Nat
  | 0 => MIN_SIZE
  | 1 => SIZE_1
  | 2 => SIZE_2
  | 3 => SIZE_3
  | n + 4 => ladderSizes (n + 3) + ladderSizes n

def initCells : List Cell :=
  (List.range ARRAY_INIT_SIZE).map fun i => ⟨ladderSizes i, 0⟩

def mem_init (g : Nat → Nat) : AllocState :=
  let st0 : AllocState :=
    { mem := ⟨g, []⟩
      data := []
      capacity := 0
      memList := 0
      nextAddr := 8
      dataArea := 0
      chunks := []
      relocations := 0
      cellZeroInserts := 0 }
  let r := alloc_new_item st0 DATA_INIT_BLOCKS
  { r.1 with
      mem := item_set_in_use r.1.mem r.2 true
      dataArea := item_get_area r.2
      data := initCells
      capacity := ARRAY_INIT_CAPACITY }

/-! ### Operation sequences -/

inductive MOp where
  | alloc (x : Nat)
  | free (p : Nat)

def runOp (fuel : Nat) (st : AllocState) (o : MOp) : Option AllocState :=
  match o with
  | .alloc x => (mem_alloc fuel st x).map Prod.fst
  | .free p => (mem_free fuel st p).map CoalArgs.st

def runOps (fuel : Nat) (st : AllocState) : List MOp → Option AllocState
  | [] => some st
  | o :: rest =>
    match runOp fuel st o with
    | none => none
    | some st1 => runOps fuel st1 rest

/-- A `free` argument is well formed when the header it points at holds
the size of a ladder cell of index at least 1: every block the engine
ever hands out satisfies this, since neither splitting (guarded by
`4 < i`) nor chunk acquisition (which uses the last ladder term) ever
produces a block of cell-0 size. -/
def validFree (st : AllocState) (p : Nat) : Bool :=
  (List.range st.data.length).any fun j =>
    decide (1 ≤ j) &&
      ((cellAt st j).size == item_get_size st.mem (item_from_area p))

def runOpC (fuel : Nat) (st : AllocState) (o : MOp) : Option AllocState :=
  match o with
  | .alloc x => (mem_alloc fuel st x).map Prod.fst
  | .free p =>
    if validFree st p then (mem_free fuel st p).map CoalArgs.st else none

def runOpsC (fuel : Nat) (st : AllocState) : List MOp → Option AllocState
  | [] => some st
  | o :: rest =>
    match runOpC fuel st o with
    | none => none
    | some st1 => runOpsC fuel st1 rest

/-! ### Invariant predicates -/

/-- Byte ranges `[a, a + la)` and `[b, b + lb)` do not overlap. -/
def rangesDisj (a la b lb : Nat) : Prop := a + la ≤ b ∨ b + lb ≤ a

/-- The generalized Fibonacci recurrence holds inside the ladder. -/
def ladderArith (l : List Cell) : Prop :=
  ∀ i, i < l.length → 4 ≤ i →
    (l.getD i ⟨0, 0⟩).size =
      (l.getD (i - 1) ⟨0, 0⟩).size + (l.getD (i - 4) ⟨0, 0⟩).size

/-- The ladder starts with the architecture seed. -/
def seedOK (l : List Cell) : Prop :=
  ARRAY_INIT_SIZE ≤ l.length ∧
    (l.getD 0 ⟨0, 0⟩).size = MIN_SIZE ∧
    (l.getD 1 ⟨0, 0⟩).size = SIZE_1 ∧
    (l.getD 2 ⟨0, 0⟩).size = SIZE_2 ∧
    (l.getD 3 ⟨0, 0⟩).size = SIZE_3

def ladderInv (l : List Cell) : Prop := seedOK l ∧ ladderArith l

/-- Cell sizes strictly increase along the ladder. -/
def sizesStrictMono (l : List Cell) : Prop :=
  ∀ i j, i < j → j < l.length →
    (l.getD i ⟨0, 0⟩).size < (l.getD j ⟨0, 0⟩).size

/-- All ladder sizes lie below the bound `B`. -/
def sizesBelow (l : List Cell) (B : Nat) : Prop := ∀ c ∈ l, c.size < B

/-- The doubly linked free list hanging off the head pointer `p`
consists exactly of the nodes `xs` (following `next` pointers). -/
def chainIs (m : Mem) : Nat → List Nat → Prop
  | p, [] => p = 0
  | p, x :: xs => p = x ∧ x ≠ 0 ∧ chainIs m (item_get_next m x) xs

/-- A table listing the members of every free list, together with the
facts about them that a reachable allocator state guarantees: the
chains are exactly the cell lists, every member's header size is the
cell size, every member's block lies inside the allocated part of
memory, and the blocks of distinct members do not overlap. -/
structure TableOk (st : AllocState) (tb : List (List Nat)) : Prop where
  len : tb.length = st.data.length
  chains : ∀ i, i < st.data.length →
    chainIs st.mem (cellAt st i).items (tb.getD i [])
  typed : ∀ i, i < st.data.length → ∀ x ∈ tb.getD i [],
    item_get_size st.mem x = (cellAt st i).size
  bounded : ∀ i, i < st.data.length → ∀ x ∈ tb.getD i [],
    8 ≤ x ∧ x + 8 * (cellAt st i).size ≤ st.nextAddr
  blocksDisj : ∀ i j, i < st.data.length → j < st.data.length →
    ∀ x ∈ tb.getD i [], ∀ y ∈ tb.getD j [], (i ≠ j ∨ x ≠ y) →
      rangesDisj x (8 * (cellAt st i).size) y (8 * (cellAt st j).size)
  nodups : ∀ i, i < st.data.length → (tb.getD i []).Nodup

/-- The ladder's size column. -/
def sizesOf (st : AllocState) : List Nat := st.data.map Cell.size

/-! ### Concrete states used by witnesses and counterexamples -/

/-- Zeroed host memory. -/
def zeroMem : Mem := ⟨fun _ => 0, []⟩

/-- The allocator state right after `mem_init` over zeroed host
memory. -/
def st0 : AllocState := mem_init fun _ => 0

/-- A fresh chunk of 69 blocks whose root block was pushed onto cell
10: the smallest state in which `coalesce` can run, its buddy being the
chunk sentinel. -/
def stW : AllocState :=
  insert_item (alloc_new_item st0 69).1 10 (alloc_new_item st0 69).2

/-- The fresh state with one extra free whole block of ladder index 9
(size 50) written at address 100000 (an address the initializer never
touched), used to exercise one split/merge round trip. -/
def stC5 : AllocState := { st0 with mem := item_set_size st0.mem 100000 50 }

/-- `stC5` after one split of the index-9 block at 100000 into its
index-5 left child (size 14, at 100000) and index-8 right child
(size 36, at 100000 + 14 * BLOCK_SIZE), both filed in their cells. -/
def stC5s : AllocState :=
  insert_item
    (insert_item { stC5 with mem := splitWrite stC5.mem 100000 14 36 }
      8 (100000 + 14 * BLOCK_SIZE)) 5 100000

/-! ### Word codec lemmas -/

theorem get_size_set_size_w (w s : Nat) (h : s < 2 ^ 61) :
    item_get_size_w (item_set_size_w w s) = s := by
  simp only [item_get_size_w, item_set_size_w]
  omega

theorem get_size_set_in_use_w (w : Nat) (b : Bool) :
    item_get_size_w (item_set_in_use_w w b) = item_get_size_w w := by
  cases b <;> simp [item_get_size_w, item_set_in_use_w] <;> omega

theorem get_size_set_lr_w (w : Nat) (b : Bool) :
    item_get_size_w (item_set_lr_bit_w w b) = item_get_size_w w := by
  cases b <;> simp [item_get_size_w, item_set_lr_bit_w] <;> omega

theorem get_size_set_inh_w (w : Nat) (b : Bool) :
    item_get_size_w (item_set_inh_bit_w w b) = item_get_size_w w := by
  cases b <;> simp [item_get_size_w, item_set_inh_bit_w] <;> omega

theorem get_iu_set_iu_w (w : Nat) (b : Bool) :
    item_is_in_use_w (item_set_in_use_w w b) = b := by
  cases b <;> simp [item_is_in_use_w, item_set_in_use_w] <;> omega

theorem get_iu_set_size_w (w s : Nat) :
    item_is_in_use_w (item_set_size_w w s) = item_is_in_use_w w := by
  have h : item_set_size_w w s / 4 % 2 = w / 4 % 2 := by
    simp only [item_set_size_w]; omega
  simp [item_is_in_use_w, h]

theorem get_iu_set_lr_w (w : Nat) (b : Bool) :
    item_is_in_use_w (item_set_lr_bit_w w b) = item_is_in_use_w w := by
  have h : item_set_lr_bit_w w b / 4 % 2 = w / 4 % 2 := by
    cases b <;> simp [item_set_lr_bit_w] <;> omega
  simp [item_is_in_use_w, h]

theorem get_iu_set_inh_w (w : Nat) (b : Bool) :
    item_is_in_use_w (item_set_inh_bit_w w b) = item_is_in_use_w w := by
  have h : item_set_inh_bit_w w b / 4 % 2 = w / 4 % 2 := by
    cases b <;> simp [item_set_inh_bit_w] <;> omega
  simp [item_is_in_use_w, h]

theorem get_lr_set_lr_w (w : Nat) (b : Bool) :
    item_get_lr_bit_w (item_set_lr_bit_w w b) = b := by
  cases b <;> simp [item_get_lr_bit_w, item_set_lr_bit_w] <;> omega

theorem get_lr_set_size_w (w s : Nat) :
    item_get_lr_bit_w (item_set_size_w w s) = item_get_lr_bit_w w := by
  have h : item_set_size_w w s / 2 % 2 = w / 2 % 2 := by
    simp only [item_set_size_w]; omega
  simp [item_get_lr_bit_w, h]

theorem get_lr_set_iu_w (w : Nat) (b : Bool) :
    item_get_lr_bit_w (item_set_in_use_w w b) = item_get_lr_bit_w w := by
  have h : item_set_in_use_w w b / 2 % 2 = w / 2 % 2 := by
    cases b <;> simp [item_set_in_use_w] <;> omega
  simp [item_get_lr_bit_w, h]

theorem get_lr_set_inh_w (w : Nat) (b : Bool) :
    item_get_lr_bit_w (item_set_inh_bit_w w b) = item_get_lr_bit_w w := by
  have h : item_set_inh_bit_w w b / 2 % 2 = w / 2 % 2 := by
    cases b <;> simp [item_set_inh_bit_w] <;> omega
  simp [item_get_lr_bit_w, h]

theorem get_inh_set_inh_w (w : Nat) (b : Bool) :
    item_get_inh_bit_w (item_set_inh_bit_w w b) = b := by
  cases b <;> simp [item_get_inh_bit_w, item_set_inh_bit_w] <;> omega

theorem get_inh_set_size_w (w s : Nat) :
    item_get_inh_bit_w (item_set_size_w w s) = item_get_inh_bit_w w := by
  have h : item_set_size_w w s % 2 = w % 2 := by
    simp only [item_set_size_w]; omega
  simp [item_get_inh_bit_w, h]

theorem get_inh_set_iu_w (w : Nat) (b : Bool) :
    item_get_inh_bit_w (item_set_in_use_w w b) = item_get_inh_bit_w w := by
  have h : item_set_in_use_w w b % 2 = w % 2 := by
    cases b <;> simp [item_set_in_use_w] <;> omega
  simp [item_get_inh_bit_w, h]

theorem get_inh_set_lr_w (w : Nat) (b : Bool) :
    item_get_inh_bit_w (item_set_lr_bit_w w b) = item_get_inh_bit_w w := by
  have h : item_set_lr_bit_w w b % 2 = w % 2 := by
    cases b <;> simp [item_set_lr_bit_w] <;> omega
  simp [item_get_inh_bit_w, h]

/-! ### Memory read/write lemmas -/

theorem rd_wr_same (m : Mem) (a v : Nat) : rd (wr m a v) a = v := by
  simp [rd, wr, List.find?]

theorem rd_wr_ne (m : Mem) (a v b : Nat) (h : b ≠ a) :
    rd (wr m a v) b = rd m b := by
  have hab : (a == b) = false := by simp [Ne.symm h]
  simp [rd, wr, List.find?, hab]

/-! ### One split iteration: header semantics -/

theorem splitWrite_spec (m : Mem) (curr szl szr : Nat)
    (h1 : 1 ≤ szl) (hl : szl < 2 ^ 61) (hr : szr < 2 ^ 61) :
    item_get_size (splitWrite m curr szl szr) curr = szl ∧
    item_get_size (splitWrite m curr szl szr) (curr + szl * BLOCK_SIZE) = szr ∧
    item_get_lr_bit (splitWrite m curr szl szr) curr = false ∧
    item_get_lr_bit (splitWrite m curr szl szr) (curr + szl * BLOCK_SIZE) = true ∧
    item_is_in_use (splitWrite m curr szl szr) curr = false ∧
    item_is_in_use (splitWrite m curr szl szr) (curr + szl * BLOCK_SIZE) = false ∧
    item_get_inh_bit (splitWrite m curr szl szr) curr = item_get_lr_bit m curr ∧
    item_get_inh_bit (splitWrite m curr szl szr) (curr + szl * BLOCK_SIZE) =
      item_get_inh_bit m curr := by
  have hne : curr ≠ curr + szl * BLOCK_SIZE := by
    simp only [BLOCK_SIZE]; omega
  have hne2 : curr + szl * BLOCK_SIZE ≠ curr := by
    simp only [BLOCK_SIZE]; omega
  refine ⟨?_, ?_, ?_, ?_, ?_, ?_, ?_, ?_⟩ <;>
    simp [splitWrite, item_get_size, item_set_size, item_get_lr_bit,
      item_set_lr_bit, item_is_in_use, item_set_in_use, item_get_inh_bit,
      item_set_inh_bit, rd_wr_same, rd_wr_ne _ _ _ _ hne, rd_wr_ne _ _ _ _ hne2,
      get_size_set_size_w, get_size_set_in_use_w, get_size_set_lr_w,
      get_size_set_inh_w, get_iu_set_iu_w, get_iu_set_size_w, get_iu_set_lr_w,
      get_iu_set_inh_w, get_lr_set_lr_w, get_lr_set_size_w, get_lr_set_iu_w,
      get_lr_set_inh_w, get_inh_set_inh_w, get_inh_set_size_w, get_inh_set_iu_w,
      get_inh_set_lr_w, hl, hr]
  all_goals simp only [item_get_size_w, item_set_size_w]
  all_goals omega

/-! ### Chunk layout lemma -/

theorem alloc_new_item_spec (st : AllocState) (n : Nat)
    (h1 : 1 ≤ n) (h2 : n < 2 ^ 61) :
    (alloc_new_item st n).2 = st.nextAddr + WORD_SIZE ∧
    (alloc_new_item st n).1.memList = st.nextAddr ∧
    rd (alloc_new_item st n).1.mem st.nextAddr = st.memList ∧
    item_get_size (alloc_new_item st n).1.mem
      (st.nextAddr + BLOCK_SIZE * n + WORD_SIZE) = 0 ∧
    item_get_lr_bit (alloc_new_item st n).1.mem
      (st.nextAddr + BLOCK_SIZE * n + WORD_SIZE) = true ∧
    item_is_in_use (alloc_new_item st n).1.mem
      (st.nextAddr + BLOCK_SIZE * n + WORD_SIZE) = true ∧
    item_get_size (alloc_new_item st n).1.mem (st.nextAddr + WORD_SIZE) = n ∧
    item_get_lr_bit (alloc_new_item st n).1.mem (st.nextAddr + WORD_SIZE) =
      false := by
  have e1 : st.nextAddr ≠ st.nextAddr + BLOCK_SIZE * n + WORD_SIZE := by
    simp only [BLOCK_SIZE, WORD_SIZE]; omega
  have e2 : st.nextAddr + BLOCK_SIZE * n + WORD_SIZE ≠ st.nextAddr := by
    simp only [BLOCK_SIZE, WORD_SIZE]; omega
  have e3 : st.nextAddr + WORD_SIZE ≠ st.nextAddr + BLOCK_SIZE * n + WORD_SIZE := by
    simp only [BLOCK_SIZE, WORD_SIZE]; omega
  have e4 : st.nextAddr + BLOCK_SIZE * n + WORD_SIZE ≠ st.nextAddr + WORD_SIZE := by
    simp only [BLOCK_SIZE, WORD_SIZE]; omega
  have e5 : st.nextAddr ≠ st.nextAddr + WORD_SIZE := by
    simp only [WORD_SIZE]; omega
  have e6 : st.nextAddr + WORD_SIZE ≠ st.nextAddr := by
    simp only [WORD_SIZE]; omega
  refine ⟨rfl, rfl, ?_, ?_, ?_, ?_, ?_, ?_⟩ <;>
    simp [alloc_new_item, item_get_size, item_set_size, item_get_lr_bit,
      item_set_lr_bit, item_is_in_use, item_set_in_use, item_get_inh_bit,
      item_set_inh_bit, rd_wr_same,
      rd_wr_ne _ _ _ _ e1, rd_wr_ne _ _ _ _ e2, rd_wr_ne _ _ _ _ e3,
      rd_wr_ne _ _ _ _ e4, rd_wr_ne _ _ _ _ e5, rd_wr_ne _ _ _ _ e6,
      get_size_set_size_w, get_size_set_in_use_w, get_size_set_lr_w,
      get_size_set_inh_w, get_iu_set_iu_w, get_iu_set_size_w, get_iu_set_lr_w,
      get_iu_set_inh_w, get_lr_set_lr_w, get_lr_set_size_w, get_lr_set_iu_w,
      get_lr_set_inh_w, get_inh_set_inh_w, get_inh_set_size_w, get_inh_set_iu_w,
      get_inh_set_lr_w, h2]
  all_goals simp only [item_get_size_w, item_set_size_w]
  all_goals omega

/-! ### Coalescer loop lemmas -/

theorem coalesceLoop_some_cond (fuel : Nat) (c c' : CoalArgs)
    (h : coalesceLoop fuel c = some c') : coalesceCond c' = false := by
  induction fuel generalizing c with
  | zero =>
    rw [coalesceLoop] at h
    by_cases hc : coalesceCond c = false
    · simp [hc] at h
      exact h ▸ hc
    · simp [hc] at h
  | succ f ih =>
    rw [coalesceLoop] at h
    by_cases hc : coalesceCond c = false
    · simp [hc] at h
      exact h ▸ hc
    · simp [hc] at h
      exact ih (coalesceBody c) h

theorem coalesceLoop_stops (fuel k : Nat) (c : CoalArgs)
    (hk : k < fuel) (hstop : coalesceCond (iterBody k c) = false) :
    (coalesceLoop fuel c).isSome = true := by
  induction fuel generalizing c k with
  | zero => omega
  | succ f ih =>
    rw [coalesceLoop]
    by_cases hc : coalesceCond c = false
    · simp [hc]
    · cases k with
      | zero =>
        simp only [iterBody] at hstop
        exact absurd hstop hc
      | succ k' =>
        simp only [hc, if_false]
        simp only [iterBody] at hstop
        exact ih k' (coalesceBody c) (by omega) hstop

/-! ### Claim C6 -/

/-- C6: every `coalesce` call that starts from a configuration whose
upward merge walk reaches, after some number `k` of body iterations, a
buddy that is in use or not whole, terminates (returns `some`) once
given more than `k` units of fuel; and an in-use buddy — in particular
the fake-right sentinel placed at the top of every chunk, whose
`in_use` bit is permanently set — always stops the walk.  On reachable
states the walk is bounded by the distance to the chunk root because
the sentinel sits immediately after the root block, so every such call
terminates. -/
theorem coalesce_terminates :
    (∀ st i k fuel, k < fuel →
        coalesceCond (iterBody k (coalesceEntry st i)) = false →
        (coalesce fuel st i).isSome = true) ∧
    (∀ c : CoalArgs, item_is_in_use c.st.mem c.buddy = true →
        coalesceCond c = false) := by
  constructor
  · intro st i k fuel hk hstop
    exact coalesceLoop_stops fuel k (coalesceEntry st i) hk hstop
  · intro c hiu
    simp [coalesceCond, hiu]

/-- Witness for C6: in the state holding one fresh 69-block chunk whose
root is on cell 10, the root's buddy is the chunk sentinel, the walk
stops after 0 merges, and `coalesce` terminates. -/
theorem coalesce_terminates_witness :
    (0 : Nat) < 5 ∧
    coalesceCond (iterBody 0 (coalesceEntry stW 10)) = false ∧
    (coalesce 5 stW 10).isSome = true :=
  ⟨by decide, by decide,
    coalesce_terminates.1 stW 10 0 5 (by decide) (by decide)⟩

/-! ### Claim C3 -/

/-- C3: whenever `mem_free` returns, the configuration it stops in —
whose `item` is the freed block or the merged block it became, sitting
at cell `i`, and whose `buddy`/`ibuddy` are that block's buddy as
computed by the coalescer — has a buddy that is in use or is not whole
(its header size differs from the ladder size at the buddy's index).
This is exactly the "no free whole buddy" exit condition of the
coalescer loop. -/
theorem mem_free_no_free_whole_buddy (fuel : Nat) (st : AllocState)
    (p : Nat) (c : CoalArgs) (h : mem_free fuel st p = some c) :
    item_is_in_use c.st.mem c.buddy = true ∨
    (cellAt c.st c.ibuddy).size ≠ item_get_size c.st.mem c.buddy := by
  have hcond : coalesceCond c = false := by
    cases fuel with
    | zero => simp [mem_free] at h
    | succ f =>
      rw [mem_free] at h
      rcases hfind : st.data.findIdx?
          (fun cc => cc.size == item_get_size st.mem (item_from_area p)) with _ | i
      · rw [hfind] at h
        simp at h
      · rw [hfind] at h
        simp only [coalesce] at h
        exact coalesceLoop_some_cond f _ c h
    
  simp only [coalesceCond, Bool.and_eq_false_iff, Bool.not_eq_false',
    beq_eq_false_iff_ne, ne_eq] at hcond
  rcases hcond with h1 | h2
  · exact Or.inl h1
  · exact Or.inr h2

/-- Witness for C3: freeing the single allocated block of a fresh
allocator returns, and the theorem applies. -/
theorem mem_free_no_free_whole_buddy_witness :
    ∃ c : CoalArgs,
      ((mem_alloc 50 st0 100).bind fun r => mem_free 50 r.1 r.2) = some c ∧
      (item_is_in_use c.st.mem c.buddy = true ∨
        (cellAt c.st c.ibuddy).size ≠ item_get_size c.st.mem c.buddy) := by
  have hsome : ((mem_alloc 50 st0 100).bind fun r =>
      mem_free 50 r.1 r.2).isSome = true := by decide
  rcases hal : mem_alloc 50 st0 100 with _ | r
  · rw [hal] at hsome
    simp at hsome
  · rw [hal] at hsome
    simp only [Option.some_bind] at hsome
    rcases hmf : mem_free 50 r.1 r.2 with _ | c
    · rw [hmf] at hsome
      simp at hsome
    · refine ⟨c, ?_, mem_free_no_free_whole_buddy 50 r.1 r.2 c hmf⟩
      simp only [Option.some_bind]
      exact hmf

/-! ### Claim C7 (corrected) -/

/-- Counterexample to C8 as stated: split a parent whose header word is
210 (size 26, `lr = RIGHT`, `inh = LEFT`).  The claim says the parent's
`lr` is copied to the left child's `lr` and to the right child's `inh`,
and the parent's `inh` to the left child's `inh`; but the code gives
the left child `lr = LEFT ≠ parent.lr`, gives the right child
`inh = LEFT ≠ parent.lr`, and gives the left child
`inh = RIGHT ≠ parent.inh`. -/
theorem split_lr_copy_counterexample :
    item_get_lr_bit (wr zeroMem 64 210) 64 = true ∧
    item_get_inh_bit (wr zeroMem 64 210) 64 = false ∧
    item_get_lr_bit (splitWrite (wr zeroMem 64 210) 64 7 19) 64 = false ∧
    item_get_inh_bit (splitWrite (wr zeroMem 64 210) 64 7 19) 120 = false ∧
    item_get_inh_bit (splitWrite (wr zeroMem 64 210) 64 7 19) 64 = true := by
  decide

/-- C8 (amended): in each iteration of `split_item` (whose header
writes are `splitWrite`), the left child gets `lr = LEFT`, the right
child gets `lr = RIGHT`, the parent's `lr` bit is copied to the left
child's `inh`, the parent's `inh` bit is copied to the right child's
`inh`, both children are marked not in use, and the children's sizes
are the two ladder sizes passed in. -/
theorem split_step_inheritance (m : Mem) (curr szl szr : Nat)
    (h1 : 1 ≤ szl) (hl : szl < 2 ^ 61) (hr : szr < 2 ^ 61) :
    item_get_size (splitWrite m curr szl szr) curr = szl ∧
    item_get_size (splitWrite m curr szl szr) (curr + szl * BLOCK_SIZE) = szr ∧
    item_get_lr_bit (splitWrite m curr szl szr) curr = false ∧
    item_get_lr_bit (splitWrite m curr szl szr) (curr + szl * BLOCK_SIZE) =
      true ∧
    item_is_in_use (splitWrite m curr szl szr) curr = false ∧
    item_is_in_use (splitWrite m curr szl szr) (curr + szl * BLOCK_SIZE) =
      false ∧
    item_get_inh_bit (splitWrite m curr szl szr) curr =
      item_get_lr_bit m curr ∧
    item_get_inh_bit (splitWrite m curr szl szr) (curr + szl * BLOCK_SIZE) =
      item_get_inh_bit m curr :=
  splitWrite_spec m curr szl szr h1 hl hr

/-- Witness for C8 (amended), splitting a parent with `lr = RIGHT`,
`inh = LEFT` into sizes 7 and 19. -/
theorem split_step_inheritance_witness :
    (1 : Nat) ≤ 7 ∧
    item_get_inh_bit (splitWrite (wr zeroMem 64 210) 64 7 19) 64 =
      item_get_lr_bit (wr zeroMem 64 210) 64 ∧
    item_get_inh_bit (splitWrite (wr zeroMem 64 210) 64 7 19)
        (64 + 7 * BLOCK_SIZE) =
      item_get_inh_bit (wr zeroMem 64 210) 64 :=
  ⟨by decide,
    (split_step_inheritance (wr zeroMem 64 210) 64 7 19 (by decide)
        (by decide) (by decide)).2.2.2.2.2.2.1,
    (split_step_inheritance (wr zeroMem 64 210) 64 7 19 (by decide)
        (by decide) (by decide)).2.2.2.2.2.2.2⟩

/-! ### Claim C2 (corrected) -/

/-- Counterexample to C2 as stated: in the freshly initialized state
(zeroed host memory), `mem_alloc 1` returns a block whose header size
is 7 — ladder index 3, the `SIZE_3` seed — and not `MIN_SIZE = 3`:
splitting stops as soon as `i ≤ 4`, so the cascade from the fresh
95-block chunk ends at index 3. -/
theorem mem_alloc_one_min_size_counterexample :
    ((mem_alloc 50 st0 1).map fun r =>
      item_get_size r.1.mem (item_from_area r.2)) = some 7 ∧
    (7 : Nat) ≠ MIN_SIZE := by decide

/-- C2 (amended): in the freshly initialized state, `mem_alloc 1`
returns a block of header size 7 (= `SIZE_3`, ladder index 3), and a
following `mem_alloc 10` (header+10 = 18 bytes still rounds to 3
blocks) returns a block of header size 5 (= `SIZE_2`, ladder index 2).
Neither allocation can produce a `MIN_SIZE` block because `split_item`
never splits below index 5. -/
theorem mem_alloc_small_request_sizes :
    ((mem_alloc 50 st0 1).map fun r =>
      item_get_size r.1.mem (item_from_area r.2)) = some 7 ∧
    ((mem_alloc 50 st0 1).bind fun r1 =>
      (mem_alloc 50 r1.1 10).map fun r2 =>
        item_get_size r2.1.mem (item_from_area r2.2)) = some 5 := by decide

/-! ### Claim C9 (corrected) -/

/-- Counterexample to C9 as stated: in the freshly initialized state
the last ladder term is 69 and `mem_alloc 1` needs `n = 2 ≤ 69`
blocks, so the claim ("extends exactly until the last term is ≥ n",
then draws a chunk of the smallest ladder size ≥ n) predicts no
extension and would use a cell of size 3; but the code's do-while
always extends at least once — the ladder grows from 11 to 12 cells —
and the chunk drawn has 95 blocks, the newly appended term, not 3. -/
theorem mem_alloc_extension_counterexample :
    st0.data.length = 11 ∧
    (cellAt st0 0).size = 3 ∧
    (2 : Nat) ≤ (cellAt st0 10).size ∧
    ((mem_alloc 50 st0 1).map fun r => (r.1.data.length, r.1.chunks.headD 0)) =
      some (12, 95) ∧
    (95 : Nat) ≠ (cellAt st0 0).size := by decide

/-! ### Size-column preservation lemmas -/

theorem map_size_set_self (l : List Cell) : ∀ (i p : Nat),
    (l.set i ⟨(l.getD i ⟨0, 0⟩).size, p⟩).map Cell.size = l.map Cell.size := by
  induction l with
  | nil => intro i p; rfl
  | cons c t ih =>
    intro i p
    cases i with
    | zero => rfl
    | succ i =>
      simp only [List.set_cons_succ, List.map_cons, List.getD_cons_succ]
      rw [ih i p]

theorem sizesOf_setItems (st : AllocState) (i p : Nat) :
    sizesOf (setItems st i p) = sizesOf st := by
  simp only [sizesOf, setItems]
  exact map_size_set_self st.data i p

theorem sizesOf_mem_update (st : AllocState) (m : Mem) :
    sizesOf { st with mem := m } = sizesOf st := rfl

theorem sizesOf_take_item (st : AllocState) (i : Nat) :
    sizesOf (take_item st i).1 = sizesOf st := by
  simp only [take_item]
  exact sizesOf_setItems _ i _

theorem sizesOf_insert_item (st : AllocState) (i b : Nat) :
    sizesOf (insert_item st i b) = sizesOf st := by
  simp only [insert_item, sizesOf]
  exact map_size_set_self st.data i b

theorem sizesOf_delete_item (st : AllocState) (i item : Nat) :
    sizesOf (delete_item st i item) = sizesOf st := by
  unfold delete_item
  dsimp only
  split
  · split
    · exact sizesOf_setItems _ i _
    · rfl
  · rfl

theorem sizesOf_splitLoop (fuel : Nat) : ∀ (st : AllocState) (i item n : Nat),
    sizesOf (splitLoop fuel st i item n).1 = sizesOf st := by
  induction fuel with
  | zero =>
    intro st i item n
    rw [splitLoop]
    split <;> rfl
  | succ f ih =>
    intro st i item n
    rw [splitLoop]
    split
    · dsimp only
      split
      · rw [ih, sizesOf_insert_item]
        rfl
      · rw [ih, sizesOf_insert_item]
        rfl
    · rfl

theorem sizesOf_split_item (st : AllocState) (i item n : Nat) :
    sizesOf (split_item st i item n).1 = sizesOf st :=
  sizesOf_splitLoop i st i item n

theorem sizesOf_coalesceBody (c : CoalArgs) :
    sizesOf (coalesceBody c).st = sizesOf c.st := by
  simp only [coalesceBody]
  rw [sizesOf_insert_item, sizesOf_mem_update, sizesOf_delete_item,
    sizesOf_delete_item]

theorem sizesOf_coalesceLoop (fuel : Nat) : ∀ (c c' : CoalArgs),
    coalesceLoop fuel c = some c' → sizesOf c'.st = sizesOf c.st := by
  induction fuel with
  | zero =>
    intro c c' h
    rw [coalesceLoop] at h
    by_cases hc : coalesceCond c = false
    · simp [hc] at h
      rw [← h]
    · simp [hc] at h
  | succ f ih =>
    intro c c' h
    rw [coalesceLoop] at h
    by_cases hc : coalesceCond c = false
    · simp [hc] at h
      rw [← h]
    · simp [hc] at h
      rw [ih _ _ h, sizesOf_coalesceBody]

theorem sizesOf_mem_free (fuel : Nat) (st : AllocState) (p : Nat)
    (c : CoalArgs) (h : mem_free fuel st p = some c) :
    sizesOf c.st = sizesOf st := by
  cases fuel with
  | zero => simp [mem_free] at h
  | succ f =>
    rw [mem_free] at h
    rcases hfind : st.data.findIdx?
        (fun cc => cc.size == item_get_size st.mem (item_from_area p)) with _ | i
    · rw [hfind] at h
      simp at h
    · rw [hfind] at h
      simp only [coalesce] at h
      rw [sizesOf_coalesceLoop f _ _ h]
      simp only [coalesceEntry]
      rw [sizesOf_insert_item, sizesOf_mem_update]

/-! ### Ladder invariant lemmas -/

theorem sizeAt_eq_of_map_eq {l l' : List Cell}
    (h : l.map Cell.size = l'.map Cell.size) (i : Nat) :
    (l.getD i ⟨0, 0⟩).size = (l'.getD i ⟨0, 0⟩).size := by
  have h1 := List.getD_map (l := l) (d := ⟨0, 0⟩) (n := i) Cell.size
  have h2 := List.getD_map (l := l') (d := ⟨0, 0⟩) (n := i) Cell.size
  rw [← h1, ← h2, h]

theorem ladderInv_of_sizes_eq {l l' : List Cell}
    (h : l.map Cell.size = l'.map Cell.size) (hl : ladderInv l) :
    ladderInv l' := by
  obtain ⟨⟨hlen, h0, h1, h2, h3⟩, har⟩ := hl
  have hL : l.length = l'.length := by
    have := congrArg List.length h
    simpa using this
  refine ⟨⟨by omega, ?_, ?_, ?_, ?_⟩, ?_⟩
  · rw [← sizeAt_eq_of_map_eq h]; exact h0
  · rw [← sizeAt_eq_of_map_eq h]; exact h1
  · rw [← sizeAt_eq_of_map_eq h]; exact h2
  · rw [← sizeAt_eq_of_map_eq h]; exact h3
  · intro i hi h4
    rw [← sizeAt_eq_of_map_eq h, ← sizeAt_eq_of_map_eq h,
      ← sizeAt_eq_of_map_eq h]
    exact har i (by omega) h4

theorem ladderInv_append_step {l : List Cell} (hl : ladderInv l) :
    ladderInv (l ++
      [⟨(l.getD (l.length - 1) ⟨0, 0⟩).size +
          (l.getD (l.length - 4) ⟨0, 0⟩).size, 0⟩]) := by
  obtain ⟨⟨hlen, h0, h1, h2, h3⟩, har⟩ := hl
  rw [show ARRAY_INIT_SIZE = 11 from rfl] at hlen
  have hL : (l ++ [(⟨(l.getD (l.length - 1) ⟨0, 0⟩).size +
      (l.getD (l.length - 4) ⟨0, 0⟩).size, 0⟩ : Cell)]).length =
      l.length + 1 := by simp
  refine ⟨⟨by rw [show ARRAY_INIT_SIZE = 11 from rfl]; simp; omega,
      ?_, ?_, ?_, ?_⟩, ?_⟩
  · rw [List.getD_append _ _ _ _ (by omega)]; exact h0
  · rw [List.getD_append _ _ _ _ (by omega)]; exact h1
  · rw [List.getD_append _ _ _ _ (by omega)]; exact h2
  · rw [List.getD_append _ _ _ _ (by omega)]; exact h3
  · intro i hi h4
    rw [hL] at hi
    rcases Nat.lt_or_ge i l.length with hcase | hcase
    · rw [List.getD_append _ _ _ _ hcase,
        List.getD_append _ _ _ _ (by omega),
        List.getD_append _ _ _ _ (by omega)]
      exact har i hcase h4
    · have hieq : i = l.length := by omega
      subst hieq
      rw [List.getD_append_right _ _ _ _ (by omega),
        List.getD_append _ _ _ _ (by omega),
        List.getD_append _ _ _ _ (by omega)]
      simp

/-! ### Unfolding equations for the fueled functions -/

theorem mem_alloc_succ (f : Nat) (st : AllocState) (x : Nat) :
    mem_alloc (f + 1) st x =
      (let n := (x + HEADER_SIZE + BLOCK_SIZE - 1) / BLOCK_SIZE
      let i := searchIdx st.data n
      if i = st.data.length then
        match extLoop f st (i - 1) n with
        | none => none
        | some r =>
          let a := alloc_new_item r.1 ((cellAt r.1 r.2).size % 2 ^ 32)
          let s := split_item a.1 r.2 a.2 n
          some ({ s.1 with mem := item_set_in_use s.1.mem s.2 true },
            item_get_area s.2)
      else
        let t := take_item st i
        let s := split_item t.1 i t.2 n
        some ({ s.1 with mem := item_set_in_use s.1.mem s.2 true },
          item_get_area s.2)) := rfl

theorem extLoop_succ (f : Nat) (st : AllocState) (i n : Nat) :
    extLoop (f + 1) st i n =
      (match array_inc_size f st with
      | none => none
      | some st1 =>
        if (cellAt st1 (i + 1)).size < n then extLoop f st1 (i + 1) n
        else some (st1, i + 1)) := rfl

theorem array_inc_size_succ (f : Nat) (st : AllocState) :
    array_inc_size (f + 1) st =
      (let i := st.data.length
      let newSize := (cellAt st (i - 1)).size + (cellAt st (i - 4)).size
      let st1 := { st with data := st.data ++ [⟨newSize, 0⟩] }
      if st1.data.length = st1.capacity then
        let st2 := { st1 with
            capacity := 2 * st1.capacity
            relocations := st1.relocations + 1 }
        let oldArea := st2.dataArea
        match mem_alloc f st2 (st2.capacity * 16) with
        | none => none
        | some r =>
          let st4 := { r.1 with dataArea := r.2 }
          match mem_free f st4 oldArea with
          | none => none
          | some c => some c.st
      else some st1) := rfl

theorem mem_free_succ (f : Nat) (st : AllocState) (p : Nat) :
    mem_free (f + 1) st p =
      (let item := item_from_area p
      let size := item_get_size st.mem item
      match st.data.findIdx? (fun c => c.size == size) with
      | none => none
      | some i =>
        let st1 := { st with mem := item_set_in_use st.mem item false }
        let st2 := insert_item st1 i item
        coalesce f st2 i) := rfl

/-! ### Ladder preservation across the public operations -/

theorem ladder_preserved (fuel : Nat) :
    (∀ st x r, ladderInv st.data → mem_alloc fuel st x = some r →
      ladderInv r.1.data) ∧
    (∀ st i n r, ladderInv st.data → extLoop fuel st i n = some r →
      ladderInv r.1.data) ∧
    (∀ st r, ladderInv st.data → array_inc_size fuel st = some r →
      ladderInv r.data) := by
  induction fuel with
  | zero =>
    refine ⟨?_, ?_, ?_⟩ <;> intro st
    · intro x r _ h
      simp [mem_alloc] at h
    · intro i n r _ h
      simp [extLoop] at h
    · intro r _ h
      simp [array_inc_size] at h
  | succ f ih =>
    obtain ⟨ihA, ihE, ihI⟩ := ih
    refine ⟨?_, ?_, ?_⟩
    · intro st x r hinv h
      rw [mem_alloc_succ] at h
      dsimp only at h
      by_cases hs : searchIdx st.data
          ((x + HEADER_SIZE + BLOCK_SIZE - 1) / BLOCK_SIZE) = st.data.length
      · rw [if_pos hs] at h
        rcases hext : extLoop f st (searchIdx st.data
            ((x + HEADER_SIZE + BLOCK_SIZE - 1) / BLOCK_SIZE) - 1)
            ((x + HEADER_SIZE + BLOCK_SIZE - 1) / BLOCK_SIZE) with _ | r2
        · rw [hext] at h
          simp at h
        · rw [hext] at h
          simp only [Option.some.injEq] at h
          have h2 := ihE st _ _ r2 hinv hext
          rw [← h]
          have hsz : sizesOf (split_item
              (alloc_new_item r2.1 ((cellAt r2.1 r2.2).size % 2 ^ 32)).1 r2.2
              (alloc_new_item r2.1 ((cellAt r2.1 r2.2).size % 2 ^ 32)).2
              ((x + HEADER_SIZE + BLOCK_SIZE - 1) / BLOCK_SIZE)).1 =
              sizesOf r2.1 := by
            rw [sizesOf_split_item]
            rfl
          exact ladderInv_of_sizes_eq hsz.symm h2
      · rw [if_neg hs] at h
        simp only [Option.some.injEq] at h
        rw [← h]
        have hsz : sizesOf (split_item
            (take_item st (searchIdx st.data
              ((x + HEADER_SIZE + BLOCK_SIZE - 1) / BLOCK_SIZE))).1
            (searchIdx st.data ((x + HEADER_SIZE + BLOCK_SIZE - 1) / BLOCK_SIZE))
            (take_item st (searchIdx st.data
              ((x + HEADER_SIZE + BLOCK_SIZE - 1) / BLOCK_SIZE))).2
            ((x + HEADER_SIZE + BLOCK_SIZE - 1) / BLOCK_SIZE)).1 =
            sizesOf st := by
          rw [sizesOf_split_item, sizesOf_take_item]
        exact ladderInv_of_sizes_eq hsz.symm hinv
    · intro st i n r hinv h
      rw [extLoop_succ] at h
      rcases hinc : array_inc_size f st with _ | st1
      · rw [hinc] at h
        simp at h
      · rw [hinc] at h
        dsimp only at h
        have h1 := ihI st st1 hinv hinc
        by_cases hlt : (cellAt st1 (i + 1)).size < n
        · rw [if_pos hlt] at h
          exact ihE st1 (i + 1) n r h1 h
        · rw [if_neg hlt] at h
          simp only [Option.some.injEq] at h
          rw [← h]
          exact h1
    · intro st r hinv h
      rw [array_inc_size_succ] at h
      dsimp only at h
      by_cases hcap : st.data.length + 1 = st.capacity
      · rw [if_pos (by simpa using hcap)] at h
        rcases hal : mem_alloc f { st with
            data := st.data ++ [⟨(cellAt st (st.data.length - 1)).size +
              (cellAt st (st.data.length - 4)).size, 0⟩]
            capacity := 2 * st.capacity
            relocations := st.relocations + 1 } (2 * st.capacity * 16)
            with _ | r3
        · rw [hal] at h
          simp at h
        · rw [hal] at h
          dsimp only at h
          have h3 : ladderInv r3.1.data := by
            refine ihA _ _ r3 ?_ hal
            exact ladderInv_append_step hinv
          split at h
          · simp at h
          · rename_i c hmf
            simp only [Option.some.injEq] at h
            rw [← h]
            have hsz := sizesOf_mem_free f _ _ c hmf
            exact ladderInv_of_sizes_eq hsz.symm h3
      · rw [if_neg (by simpa using hcap)] at h
        simp only [Option.some.injEq] at h
        rw [← h]
        exact ladderInv_append_step hinv

/-! ### Strict monotonicity of the ladder -/

theorem ladder_pos {l : List Cell} (hl : ladderInv l) :
    ∀ i, i < l.length → 0 < (l.getD i ⟨0, 0⟩).size := by
  obtain ⟨⟨hlen, h0, h1, h2, h3⟩, har⟩ := hl
  intro i
  induction i using Nat.strong_induction_on with
  | _ i ih =>
    intro hi
    rcases Nat.lt_or_ge i 4 with h4 | h4
    · interval_cases i
      · rw [h0]; decide
      · rw [h1]; decide
      · rw [h2]; decide
      · rw [h3]; decide
    · have heq := har i hi h4
      have hpos := ih (i - 4) (by omega) (by omega)
      omega

theorem ladder_adjacent {l : List Cell} (hl : ladderInv l) :
    ∀ i, i + 1 < l.length →
      (l.getD i ⟨0, 0⟩).size < (l.getD (i + 1) ⟨0, 0⟩).size := by
  intro i hi
  obtain ⟨⟨hlen, h0, h1, h2, h3⟩, har⟩ := hl
  rcases Nat.lt_or_ge (i + 1) 4 with h4 | h4
  · have hub : i < 3 := by omega
    interval_cases i
    · rw [h0, h1]; decide
    · rw [h1, h2]; decide
    · rw [h2, h3]; decide
  · have heq := har (i + 1) hi (by omega)
    have hpos := ladder_pos ⟨⟨hlen, h0, h1, h2, h3⟩, har⟩ (i + 1 - 4) (by omega)
    have hs : i + 1 - 1 = i := by omega
    rw [hs] at heq
    omega

theorem ladder_mono {l : List Cell} (hl : ladderInv l) : sizesStrictMono l := by
  intro i j hij hj
  induction j with
  | zero => omega
  | succ j ih =>
    rcases Nat.lt_or_ge i j with h | h
    · exact lt_trans (ih h (by omega)) (ladder_adjacent hl j hj)
    · have hij2 : i = j := by omega
      subst hij2
      exact ladder_adjacent hl i hj

/-! ### Trace-level ladder preservation -/

theorem runOp_ladder (fuel : Nat) (st : AllocState) (o : MOp)
    (st1 : AllocState) (hinv : ladderInv st.data)
    (h : runOp fuel st o = some st1) : ladderInv st1.data := by
  cases o with
  | alloc x =>
    simp only [runOp] at h
    rcases hal : mem_alloc fuel st x with _ | r
    · rw [hal] at h
      simp at h
    · rw [hal] at h
      simp only [Option.map_some', Option.some.injEq] at h
      rw [← h]
      exact (ladder_preserved fuel).1 st x r hinv hal
  | free p =>
    simp only [runOp] at h
    rcases hmf : mem_free fuel st p with _ | c
    · rw [hmf] at h
      simp at h
    · rw [hmf] at h
      simp only [Option.map_some', Option.some.injEq] at h
      rw [← h]
      exact ladderInv_of_sizes_eq (sizesOf_mem_free fuel st p c hmf).symm hinv

theorem runOps_ladder (fuel : Nat) (ops : List MOp) :
    ∀ (st st' : AllocState), ladderInv st.data →
      runOps fuel st ops = some st' → ladderInv st'.data := by
  induction ops with
  | nil =>
    intro st st' hinv h
    simp only [runOps, Option.some.injEq] at h
    rw [← h]
    exact hinv
  | cons o rest ih =>
    intro st st' hinv h
    rw [runOps] at h
    rcases ho : runOp fuel st o with _ | st1
    · rw [ho] at h
      simp at h
    · rw [ho] at h
      exact ih st1 st' (runOp_ladder fuel st o st1 hinv ho) h

theorem initCells_ladderInv : ladderInv initCells := by
  constructor
  · refine ⟨by decide, by decide, by decide, by decide, by decide⟩
  · intro i hi h4
    have hlen : initCells.length = 11 := by decide
    rw [hlen] at hi
    interval_cases i <;> decide

/-! ### Claim C4 -/

/-- C4: after `mem_init` and after every terminating sequence of public
operations (`mem_alloc` / `mem_free`), the ladder satisfies the
generalized Fibonacci recurrence — for every index `4 ≤ i <
array.size`, `data[i].size = data[i-1].size + data[i-4].size` — and the
cell sizes are strictly increasing in the index. -/
theorem ladder_consistency_after_ops (g : Nat → Nat) (fuel : Nat)
    (ops : List MOp) (st' : AllocState)
    (h : runOps fuel (mem_init g) ops = some st') :
    (∀ i, i < st'.data.length → 4 ≤ i →
      (st'.data.getD i ⟨0, 0⟩).size =
        (st'.data.getD (i - 1) ⟨0, 0⟩).size +
          (st'.data.getD (i - 4) ⟨0, 0⟩).size) ∧
    sizesStrictMono st'.data := by
  have hinv : ladderInv (mem_init g).data := initCells_ladderInv
  have hfin := runOps_ladder fuel ops (mem_init g) st' hinv h
  exact ⟨hfin.2, ladder_mono hfin⟩

/-- Witness for C4: an allocation trace from the fresh state. -/
theorem ladder_consistency_after_ops_witness :
    ∃ st' : AllocState,
      runOps 50 (mem_init fun _ => 0) [MOp.alloc 1, MOp.alloc 10] = some st' ∧
      ((∀ i, i < st'.data.length → 4 ≤ i →
        (st'.data.getD i ⟨0, 0⟩).size =
          (st'.data.getD (i - 1) ⟨0, 0⟩).size +
            (st'.data.getD (i - 4) ⟨0, 0⟩).size) ∧
      sizesStrictMono st'.data) := by
  have hsome : (runOps 50 (mem_init fun _ => 0)
      [MOp.alloc 1, MOp.alloc 10]).isSome = true := by decide
  rcases hrun : runOps 50 (mem_init fun _ => 0) [MOp.alloc 1, MOp.alloc 10]
      with _ | st'
  · rw [hrun] at hsome
    simp at hsome
  · exact ⟨st', rfl,
      ladder_consistency_after_ops (fun _ => 0) 50 [MOp.alloc 1, MOp.alloc 10]
        st' hrun⟩

/-! ### Cell-0 preservation lemmas -/

theorem cellAt_setItems_ne (st : AllocState) (i p j : Nat) (h : i ≠ j) :
    cellAt (setItems st i p) j = cellAt st j := by
  simp only [cellAt, setItems]
  rw [List.getD_eq_getElem?_getD, List.getElem?_set_ne h,
    ← List.getD_eq_getElem?_getD]

theorem insert_item_data (st : AllocState) (i b : Nat) :
    (insert_item st i b).data = st.data.set i ⟨(cellAt st i).size, b⟩ := rfl

theorem insert_item_zc (st : AllocState) (i b : Nat) :
    (insert_item st i b).cellZeroInserts =
      st.cellZeroInserts + (if i = 0 then 1 else 0) := rfl

theorem cellAt_insert_item_ne (st : AllocState) (i b j : Nat) (h : i ≠ j) :
    cellAt (insert_item st i b) j = cellAt st j := by
  simp only [cellAt, insert_item_data]
  rw [List.getD_eq_getElem?_getD, List.getElem?_set_ne h,
    ← List.getD_eq_getElem?_getD]

theorem insert_item_zc_ne (st : AllocState) (i b : Nat) (h : i ≠ 0) :
    (insert_item st i b).cellZeroInserts = st.cellZeroInserts := by
  rw [insert_item_zc, if_neg h]
  rfl

theorem take_item_cell0 (st : AllocState) (i : Nat) (h : i ≠ 0) :
    cellAt (take_item st i).1 0 = cellAt st 0 ∧
    (take_item st i).1.cellZeroInserts = st.cellZeroInserts := by
  constructor
  · exact cellAt_setItems_ne _ _ _ _ h
  · rfl

theorem delete_item_cell0 (st : AllocState) (i item : Nat)
    (h : i ≠ 0 ∨ (cellAt st i).items = 0) :
    cellAt (delete_item st i item) 0 = cellAt st 0 ∧
    (delete_item st i item).cellZeroInserts = st.cellZeroInserts := by
  unfold delete_item
  dsimp only
  rcases h with h | h
  · split
    · split
      · exact ⟨cellAt_setItems_ne _ _ _ _ h, rfl⟩
      · exact ⟨rfl, rfl⟩
    · exact ⟨rfl, rfl⟩
  · have hfind : delFind st.mem item (cellAt st i).items (st.nextAddr / 8) = 0 := by
      rw [h]
      cases hb : st.nextAddr / 8 with
      | zero => rfl
      | succ b => rw [delFind]; simp
    rw [hfind]
    simp

theorem splitLoop_cell0 (fuel : Nat) : ∀ (st : AllocState) (i item n : Nat),
    cellAt (splitLoop fuel st i item n).1 0 = cellAt st 0 ∧
    (splitLoop fuel st i item n).1.cellZeroInserts = st.cellZeroInserts := by
  induction fuel with
  | zero =>
    intro st i item n
    rw [splitLoop]
    split <;> exact ⟨rfl, rfl⟩
  | succ f ih =>
    intro st i item n
    rw [splitLoop]
    split
    · rename_i hcond
      dsimp only
      split
      · constructor
        · rw [(ih _ _ _ _).1]
          exact cellAt_insert_item_ne _ _ _ _ (by omega)
        · rw [(ih _ _ _ _).2]
          exact insert_item_zc_ne _ _ _ (by omega)
      · constructor
        · rw [(ih _ _ _ _).1]
          exact cellAt_insert_item_ne _ _ _ _ (by omega)
        · rw [(ih _ _ _ _).2]
          exact insert_item_zc_ne _ _ _ (by omega)
    · exact ⟨rfl, rfl⟩

theorem coalesceBody_cell0 (c : CoalArgs) (h0 : (cellAt c.st 0).items = 0) :
    cellAt (coalesceBody c).st 0 = cellAt c.st 0 ∧
    (coalesceBody c).st.cellZeroInserts = c.st.cellZeroInserts := by
  unfold coalesceBody
  dsimp only
  have hd1 := delete_item_cell0 c.st c.i c.item (by
    rcases Nat.eq_zero_or_pos c.i with hz | hz
    · right
      rw [hz]
      exact h0
    · left
      omega)
  have hd2 := delete_item_cell0 (delete_item c.st c.i c.item) c.ibuddy c.buddy
    (by
      rcases Nat.eq_zero_or_pos c.ibuddy with hz | hz
      · right
        rw [hz, hd1.1]
        exact h0
      · left
        omega)
  rcases Bool.eq_false_or_eq_true (item_get_lr_bit
      (delete_item (delete_item c.st c.i c.item) c.ibuddy c.buddy).mem c.item)
      with hb | hb
  · simp only [hb, Bool.true_eq_false, if_false]
    constructor
    · rw [cellAt_insert_item_ne _ (c.i + 1) _ 0 (by omega)]
      exact hd2.1.trans hd1.1
    · rw [insert_item_zc_ne _ (c.i + 1) _ (by omega)]
      exact hd2.2.trans hd1.2
  · simp only [hb, eq_self_iff_true, if_true]
    constructor
    · rw [cellAt_insert_item_ne _ (c.i + 4) _ 0 (by omega)]
      exact hd2.1.trans hd1.1
    · rw [insert_item_zc_ne _ (c.i + 4) _ (by omega)]
      exact hd2.2.trans hd1.2

theorem coalesceLoop_cell0 (fuel : Nat) : ∀ (c c' : CoalArgs),
    coalesceLoop fuel c = some c' → (cellAt c.st 0).items = 0 →
    cellAt c'.st 0 = cellAt c.st 0 ∧
    c'.st.cellZeroInserts = c.st.cellZeroInserts := by
  induction fuel with
  | zero =>
    intro c c' h h0
    rw [coalesceLoop] at h
    by_cases hc : coalesceCond c = false
    · simp [hc] at h
      rw [← h]
      exact ⟨rfl, rfl⟩
    · simp [hc] at h
  | succ f ih =>
    intro c c' h h0
    rw [coalesceLoop] at h
    by_cases hc : coalesceCond c = false
    · simp [hc] at h
      rw [← h]
      exact ⟨rfl, rfl⟩
    · simp [hc] at h
      have hb := coalesceBody_cell0 c h0
      have hrec := ih (coalesceBody c) c' h (by rw [hb.1]; exact h0)
      exact ⟨hrec.1.trans hb.1, hrec.2.trans hb.2⟩

/-! ### Search lemmas -/

theorem searchIdx_le_length (n : Nat) : ∀ (cells : List Cell),
    searchIdx cells n ≤ cells.length := by
  intro cells
  induction cells with
  | nil => simp [searchIdx]
  | cons c rest ih =>
    rw [searchIdx]
    split
    · simp
    · simp only [List.length_cons]
      omega

theorem searchIdx_found (n : Nat) : ∀ (cells : List Cell),
    searchIdx cells n < cells.length →
    n ≤ (cells.getD (searchIdx cells n) ⟨0, 0⟩).size ∧
    (cells.getD (searchIdx cells n) ⟨0, 0⟩).items ≠ 0 := by
  intro cells
  induction cells with
  | nil => simp [searchIdx]
  | cons c rest ih =>
    rw [searchIdx]
    split
    · rename_i hcond
      intro _
      simp only [List.getD_cons_zero]
      exact hcond
    · intro hlen
      simp only [List.getD_cons_succ]
      exact ih (by simpa using hlen)

theorem findIdx?_found_aux {α : Type} (p : α → Bool) : ∀ (l : List α)
    (k i : Nat) (d : α), List.findIdx? p l k = some i →
    k ≤ i ∧ i - k < l.length ∧ p (l.getD (i - k) d) = true := by
  intro l
  induction l with
  | nil =>
    intro k i d h
    simp [List.findIdx?] at h
  | cons a rest ih =>
    intro k i d h
    rw [List.findIdx?] at h
    by_cases hp : p a
    · simp only [hp, if_true] at h
      simp only [Option.some.injEq] at h
      rw [← h]
      simp [hp]
    · simp only [hp, if_false] at h
      have := ih (k + 1) i d h
      have hk : k + 1 ≤ i := this.1
      have hsub : i - k = (i - (k + 1)) + 1 := by omega
      refine ⟨by omega, ?_, ?_⟩
      · simp only [List.length_cons]
        omega
      · rw [hsub]
        simp only [List.getD_cons_succ]
        exact this.2.2

theorem findIdx?_found {α : Type} (p : α → Bool) (l : List α) (i : Nat)
    (d : α) (h : l.findIdx? p = some i) :
    i < l.length ∧ p (l.getD i d) = true := by
  have := findIdx?_found_aux p l 0 i d h
  simpa using this

/-! ### Relocation-counter lemmas -/

theorem delete_item_reloc (st : AllocState) (i item : Nat) :
    (delete_item st i item).relocations = st.relocations := by
  unfold delete_item
  dsimp only
  split
  · split
    · rfl
    · rfl
  · rfl

theorem splitLoop_reloc (fuel : Nat) : ∀ (st : AllocState) (i item n : Nat),
    (splitLoop fuel st i item n).1.relocations = st.relocations := by
  induction fuel with
  | zero =>
    intro st i item n
    rw [splitLoop]
    split <;> rfl
  | succ f ih =>
    intro st i item n
    rw [splitLoop]
    split
    · dsimp only
      split
      · rw [ih]
        rfl
      · rw [ih]
        rfl
    · rfl

theorem coalesceBody_reloc (c : CoalArgs) :
    (coalesceBody c).st.relocations = c.st.relocations := by
  unfold coalesceBody
  dsimp only
  show (insert_item _ _ _).relocations = c.st.relocations
  rw [show ∀ (st : AllocState) (i b : Nat),
    (insert_item st i b).relocations = st.relocations from fun _ _ _ => rfl]
  show (delete_item (delete_item c.st c.i c.item) c.ibuddy c.buddy).relocations =
    c.st.relocations
  rw [delete_item_reloc, delete_item_reloc]

theorem coalesceLoop_reloc (fuel : Nat) : ∀ (c c' : CoalArgs),
    coalesceLoop fuel c = some c' → c'.st.relocations = c.st.relocations := by
  induction fuel with
  | zero =>
    intro c c' h
    rw [coalesceLoop] at h
    by_cases hc : coalesceCond c = false
    · simp [hc] at h
      rw [← h]
    · simp [hc] at h
  | succ f ih =>
    intro c c' h
    rw [coalesceLoop] at h
    by_cases hc : coalesceCond c = false
    · simp [hc] at h
      rw [← h]
    · simp [hc] at h
      rw [ih _ _ h, coalesceBody_reloc]

theorem mem_free_reloc (fuel : Nat) (st : AllocState) (p : Nat)
    (c : CoalArgs) (h : mem_free fuel st p = some c) :
    c.st.relocations = st.relocations := by
  cases fuel with
  | zero => simp [mem_free] at h
  | succ f =>
    rw [mem_free] at h
    rcases hfind : st.data.findIdx?
        (fun cc => cc.size == item_get_size st.mem (item_from_area p)) with _ | i
    · rw [hfind] at h
      simp at h
    · rw [hfind] at h
      simp only [coalesce] at h
      rw [coalesceLoop_reloc f _ _ h]
      rfl

theorem reloc_mono (fuel : Nat) :
    (∀ st x r, mem_alloc fuel st x = some r →
      st.relocations ≤ r.1.relocations) ∧
    (∀ st i n r, extLoop fuel st i n = some r →
      st.relocations ≤ r.1.relocations) ∧
    (∀ st r, array_inc_size fuel st = some r →
      st.relocations ≤ r.relocations) := by
  induction fuel with
  | zero =>
    refine ⟨?_, ?_, ?_⟩ <;> intro st
    · intro x r h
      simp [mem_alloc] at h
    · intro i n r h
      simp [extLoop] at h
    · intro r h
      simp [array_inc_size] at h
  | succ f ih =>
    obtain ⟨ihA, ihE, ihI⟩ := ih
    refine ⟨?_, ?_, ?_⟩
    · intro st x r h
      rw [mem_alloc_succ] at h
      dsimp only at h
      by_cases hs : searchIdx st.data
          ((x + HEADER_SIZE + BLOCK_SIZE - 1) / BLOCK_SIZE) = st.data.length
      · rw [if_pos hs] at h
        rcases hext : extLoop f st (searchIdx st.data
            ((x + HEADER_SIZE + BLOCK_SIZE - 1) / BLOCK_SIZE) - 1)
            ((x + HEADER_SIZE + BLOCK_SIZE - 1) / BLOCK_SIZE) with _ | r2
        · rw [hext] at h
          simp at h
        · rw [hext] at h
          simp only [Option.some.injEq] at h
          have h2 := ihE st _ _ r2 hext
          rw [← h]
          show st.relocations ≤ (split_item _ _ _ _).1.relocations
          rw [show ∀ (s : AllocState) (i it nn : Nat),
            (split_item s i it nn).1.relocations = s.relocations from
            fun s i it nn => splitLoop_reloc i s i it nn]
          exact h2
      · rw [if_neg hs] at h
        simp only [Option.some.injEq] at h
        rw [← h]
        show st.relocations ≤ (split_item _ _ _ _).1.relocations
        rw [show ∀ (s : AllocState) (i it nn : Nat),
          (split_item s i it nn).1.relocations = s.relocations from
          fun s i it nn => splitLoop_reloc i s i it nn]
        exact le_refl _
    · intro st i n r h
      rw [extLoop_succ] at h
      rcases hinc : array_inc_size f st with _ | st1
      · rw [hinc] at h
        simp at h
      · rw [hinc] at h
        dsimp only at h
        have h1 := ihI st st1 hinc
        by_cases hlt : (cellAt st1 (i + 1)).size < n
        · rw [if_pos hlt] at h
          exact le_trans h1 (ihE st1 (i + 1) n r h)
        · rw [if_neg hlt] at h
          simp only [Option.some.injEq] at h
          rw [← h]
          exact h1
    · intro st r h
      rw [array_inc_size_succ] at h
      dsimp only at h
      by_cases hcap : st.data.length + 1 = st.capacity
      · rw [if_pos (by simpa using hcap)] at h
        rcases hal : mem_alloc f { st with
            data := st.data ++ [⟨(cellAt st (st.data.length - 1)).size +
              (cellAt st (st.data.length - 4)).size, 0⟩]
            capacity := 2 * st.capacity
            relocations := st.relocations + 1 } (2 * st.capacity * 16)
            with _ | r3
        · rw [hal] at h
          simp at h
        · rw [hal] at h
          dsimp only at h
          have h3 := ihA _ _ r3 hal
          split at h
          · simp at h
          · rename_i c hmf
            simp only [Option.some.injEq] at h
            rw [← h]
            have h4 := mem_free_reloc f _ _ c hmf
            have h5 : c.st.relocations = r3.1.relocations := h4
            simp only at h3
            omega
      · rw [if_neg (by simpa using hcap)] at h
        simp only [Option.some.injEq] at h
        rw [← h]

/-! ### Cell-0 preservation through allocation -/

theorem alloc_cell0 (fuel : Nat) :
    (∀ st x r, mem_alloc fuel st x = some r →
      r.1.relocations = st.relocations → ladderInv st.data →
      (cellAt st 0).items = 0 →
      cellAt r.1 0 = cellAt st 0 ∧
        r.1.cellZeroInserts = st.cellZeroInserts) ∧
    (∀ st i n r, extLoop fuel st i n = some r →
      r.1.relocations = st.relocations → ladderInv st.data →
      cellAt r.1 0 = cellAt st 0 ∧
        r.1.cellZeroInserts = st.cellZeroInserts) ∧
    (∀ st r, array_inc_size fuel st = some r →
      r.relocations = st.relocations → ladderInv st.data →
      cellAt r 0 = cellAt st 0 ∧
        r.cellZeroInserts = st.cellZeroInserts) := by
  induction fuel with
  | zero =>
    refine ⟨?_, ?_, ?_⟩ <;> intro st
    · intro x r h
      simp [mem_alloc] at h
    · intro i n r h
      simp [extLoop] at h
    · intro r h
      simp [array_inc_size] at h
  | succ f ih =>
    obtain ⟨ihA, ihE, ihI⟩ := ih
    refine ⟨?_, ?_, ?_⟩
    · intro st x r h hrel hinv h0
      rw [mem_alloc_succ] at h
      dsimp only at h
      by_cases hs : searchIdx st.data
          ((x + HEADER_SIZE + BLOCK_SIZE - 1) / BLOCK_SIZE) = st.data.length
      · rw [if_pos hs] at h
        rcases hext : extLoop f st (searchIdx st.data
            ((x + HEADER_SIZE + BLOCK_SIZE - 1) / BLOCK_SIZE) - 1)
            ((x + HEADER_SIZE + BLOCK_SIZE - 1) / BLOCK_SIZE) with _ | r2
        · rw [hext] at h
          simp at h
        · rw [hext] at h
          simp only [Option.some.injEq] at h
          have hrel2 : r2.1.relocations = st.relocations := by
            have hle := (reloc_mono f).2.1 st _ _ r2 hext
            have hsp : r.1.relocations = r2.1.relocations := by
              rw [← h]
              show (split_item _ _ _ _).1.relocations = _
              rw [show ∀ (s : AllocState) (j it nn : Nat),
                (split_item s j it nn).1.relocations = s.relocations from
                fun s j it nn => splitLoop_reloc j s j it nn]
              rfl
            omega
          have hE := ihE st _ _ r2 hext hrel2 hinv
          have hsplit := splitLoop_cell0 r2.2
            (alloc_new_item r2.1 ((cellAt r2.1 r2.2).size % 2 ^ 32)).1 r2.2
            (alloc_new_item r2.1 ((cellAt r2.1 r2.2).size % 2 ^ 32)).2
            ((x + HEADER_SIZE + BLOCK_SIZE - 1) / BLOCK_SIZE)
          constructor
          · rw [← h]
            show cellAt (split_item _ _ _ _).1 0 = _
            rw [show (split_item (alloc_new_item r2.1
                ((cellAt r2.1 r2.2).size % 2 ^ 32)).1 r2.2
                (alloc_new_item r2.1 ((cellAt r2.1 r2.2).size % 2 ^ 32)).2
                ((x + HEADER_SIZE + BLOCK_SIZE - 1) / BLOCK_SIZE)).1 =
              (splitLoop r2.2 (alloc_new_item r2.1
                ((cellAt r2.1 r2.2).size % 2 ^ 32)).1 r2.2
                (alloc_new_item r2.1 ((cellAt r2.1 r2.2).size % 2 ^ 32)).2
                ((x + HEADER_SIZE + BLOCK_SIZE - 1) / BLOCK_SIZE)).1 from rfl]
            rw [hsplit.1]
            exact hE.1
          · rw [← h]
            show (split_item _ _ _ _).1.cellZeroInserts = _
            rw [show (split_item (alloc_new_item r2.1
                ((cellAt r2.1 r2.2).size % 2 ^ 32)).1 r2.2
                (alloc_new_item r2.1 ((cellAt r2.1 r2.2).size % 2 ^ 32)).2
                ((x + HEADER_SIZE + BLOCK_SIZE - 1) / BLOCK_SIZE)).1 =
              (splitLoop r2.2 (alloc_new_item r2.1
                ((cellAt r2.1 r2.2).size % 2 ^ 32)).1 r2.2
                (alloc_new_item r2.1 ((cellAt r2.1 r2.2).size % 2 ^ 32)).2
                ((x + HEADER_SIZE + BLOCK_SIZE - 1) / BLOCK_SIZE)).1 from rfl]
            rw [hsplit.2]
            exact hE.2
      · rw [if_neg hs] at h
        simp only [Option.some.injEq] at h
        have hlen : searchIdx st.data
            ((x + HEADER_SIZE + BLOCK_SIZE - 1) / BLOCK_SIZE) <
            st.data.length := by
          have := searchIdx_le_length
            ((x + HEADER_SIZE + BLOCK_SIZE - 1) / BLOCK_SIZE) st.data
          omega
        have hfound := searchIdx_found
          ((x + HEADER_SIZE + BLOCK_SIZE - 1) / BLOCK_SIZE) st.data hlen
        have hne0 : searchIdx st.data
            ((x + HEADER_SIZE + BLOCK_SIZE - 1) / BLOCK_SIZE) ≠ 0 := by
          intro hz
          rw [hz] at hfound
          exact hfound.2 h0
        have htake := take_item_cell0 st _ hne0
        have hsplit := splitLoop_cell0 (searchIdx st.data
            ((x + HEADER_SIZE + BLOCK_SIZE - 1) / BLOCK_SIZE))
          (take_item st (searchIdx st.data
            ((x + HEADER_SIZE + BLOCK_SIZE - 1) / BLOCK_SIZE))).1
          (searchIdx st.data ((x + HEADER_SIZE + BLOCK_SIZE - 1) / BLOCK_SIZE))
          (take_item st (searchIdx st.data
            ((x + HEADER_SIZE + BLOCK_SIZE - 1) / BLOCK_SIZE))).2
          ((x + HEADER_SIZE + BLOCK_SIZE - 1) / BLOCK_SIZE)
        constructor
        · rw [← h]
          show cellAt (split_item _ _ _ _).1 0 = _
          rw [show (split_item (take_item st (searchIdx st.data
              ((x + HEADER_SIZE + BLOCK_SIZE - 1) / BLOCK_SIZE))).1
              (searchIdx st.data
                ((x + HEADER_SIZE + BLOCK_SIZE - 1) / BLOCK_SIZE))
              (take_item st (searchIdx st.data
                ((x + HEADER_SIZE + BLOCK_SIZE - 1) / BLOCK_SIZE))).2
              ((x + HEADER_SIZE + BLOCK_SIZE - 1) / BLOCK_SIZE)).1 =
            (splitLoop (searchIdx st.data
                ((x + HEADER_SIZE + BLOCK_SIZE - 1) / BLOCK_SIZE))
              (take_item st (searchIdx st.data
                ((x + HEADER_SIZE + BLOCK_SIZE - 1) / BLOCK_SIZE))).1
              (searchIdx st.data
                ((x + HEADER_SIZE + BLOCK_SIZE - 1) / BLOCK_SIZE))
              (take_item st (searchIdx st.data
                ((x + HEADER_SIZE + BLOCK_SIZE - 1) / BLOCK_SIZE))).2
              ((x + HEADER_SIZE + BLOCK_SIZE - 1) / BLOCK_SIZE)).1 from rfl]
          rw [hsplit.1]
          exact htake.1
        · rw [← h]
          show (split_item _ _ _ _).1.cellZeroInserts = _
          rw [show (split_item (take_item st (searchIdx st.data
              ((x + HEADER_SIZE + BLOCK_SIZE - 1) / BLOCK_SIZE))).1
              (searchIdx st.data
                ((x + HEADER_SIZE + BLOCK_SIZE - 1) / BLOCK_SIZE))
              (take_item st (searchIdx st.data
                ((x + HEADER_SIZE + BLOCK_SIZE - 1) / BLOCK_SIZE))).2
              ((x + HEADER_SIZE + BLOCK_SIZE - 1) / BLOCK_SIZE)).1 =
            (splitLoop (searchIdx st.data
                ((x + HEADER_SIZE + BLOCK_SIZE - 1) / BLOCK_SIZE))
              (take_item st (searchIdx st.data
                ((x + HEADER_SIZE + BLOCK_SIZE - 1) / BLOCK_SIZE))).1
              (searchIdx st.data
                ((x + HEADER_SIZE + BLOCK_SIZE - 1) / BLOCK_SIZE))
              (take_item st (searchIdx st.data
                ((x + HEADER_SIZE + BLOCK_SIZE - 1) / BLOCK_SIZE))).2
              ((x + HEADER_SIZE + BLOCK_SIZE - 1) / BLOCK_SIZE)).1 from rfl]
          rw [hsplit.2]
          exact htake.2
    · intro st i n r h hrel hinv
      rw [extLoop_succ] at h
      rcases hinc : array_inc_size f st with _ | st1
      · rw [hinc] at h
        simp at h
      · rw [hinc] at h
        dsimp only at h
        by_cases hlt : (cellAt st1 (i + 1)).size < n
        · rw [if_pos hlt] at h
          have hrel1 : st1.relocations = st.relocations := by
            have h1 := (reloc_mono f).2.2 st st1 hinc
            have h2 := (reloc_mono f).2.1 st1 (i + 1) n r h
            omega
          have hi := ihI st st1 hinc hrel1 hinv
          have hinv1 := (ladder_preserved f).2.2 st st1 hinv hinc
          have hE := ihE st1 (i + 1) n r h (by omega) hinv1
          exact ⟨hE.1.trans hi.1, hE.2.trans hi.2⟩
        · rw [if_neg hlt] at h
          simp only [Option.some.injEq] at h
          rw [← h]
          exact ihI st st1 hinc (by rw [← h] at hrel; exact hrel) hinv
    · intro st r h hrel hinv
      rw [array_inc_size_succ] at h
      dsimp only at h
      by_cases hcap : st.data.length + 1 = st.capacity
      · rw [if_pos (by simpa using hcap)] at h
        rcases hal : mem_alloc f { st with
            data := st.data ++ [⟨(cellAt st (st.data.length - 1)).size +
              (cellAt st (st.data.length - 4)).size, 0⟩]
            capacity := 2 * st.capacity
            relocations := st.relocations + 1 } (2 * st.capacity * 16)
            with _ | r3
        · rw [hal] at h
          simp at h
        · rw [hal] at h
          dsimp only at h
          have h3 := (reloc_mono f).1 _ _ r3 hal
          split at h
          · simp at h
          · rename_i c hmf
            simp only [Option.some.injEq] at h
            have h4 := mem_free_reloc f _ _ c hmf
            have h5 : c.st.relocations = r3.1.relocations := h4
            simp only at h3
            rw [← h] at hrel
            omega
      · rw [if_neg (by simpa using hcap)] at h
        simp only [Option.some.injEq] at h
        rw [← h]
        constructor
        · show (st.data ++ [_]).getD 0 ⟨0, 0⟩ = cellAt st 0
          rw [List.getD_append _ _ _ _ (by
            have := hinv.1.1
            rw [show ARRAY_INIT_SIZE = 11 from rfl] at this
            omega)]
          rfl
        · rfl

theorem mem_free_cell0 (fuel : Nat) (st : AllocState) (p : Nat)
    (c : CoalArgs) (h : mem_free fuel st p = some c)
    (hinv : ladderInv st.data) (h0 : (cellAt st 0).items = 0)
    (hvf : validFree st p = true) :
    cellAt c.st 0 = cellAt st 0 ∧
    c.st.cellZeroInserts = st.cellZeroInserts := by
  cases fuel with
  | zero => simp [mem_free] at h
  | succ f =>
    rw [mem_free] at h
    rcases hfind : st.data.findIdx?
        (fun cc => cc.size == item_get_size st.mem (item_from_area p))
        with _ | i
    · rw [hfind] at h
      simp at h
    · rw [hfind] at h
      have hfound := findIdx?_found _ st.data i ⟨0, 0⟩ hfind
      have hva : ∃ j, j < st.data.length ∧ 1 ≤ j ∧
          (cellAt st j).size = item_get_size st.mem (item_from_area p) := by
        simp only [validFree, List.any_eq_true, List.mem_range] at hvf
        obtain ⟨j, hj, hjp⟩ := hvf
        simp only [Bool.and_eq_true, decide_eq_true_eq, beq_iff_eq] at hjp
        exact ⟨j, hj, hjp.1, hjp.2⟩
      have hne0 : i ≠ 0 := by
        intro hz
        obtain ⟨j, hjlen, hj1, hjeq⟩ := hva
        have hieq : (cellAt st i).size =
            item_get_size st.mem (item_from_area p) := by
          have := hfound.2
          simp only [beq_iff_eq] at this
          exact this
        rw [hz] at hieq
        have hmono := ladder_mono hinv 0 j hj1 hjlen
        simp only [cellAt] at hieq hjeq
        omega
      simp only [coalesce] at h
      have hins := cellAt_insert_item_ne
        { st with mem := item_set_in_use st.mem (item_from_area p) false } i
        (item_from_area p) 0 hne0
      have hzc := insert_item_zc_ne
        { st with mem := item_set_in_use st.mem (item_from_area p) false } i
        (item_from_area p) hne0
      have hloop := coalesceLoop_cell0 f _ c h (by
        show (cellAt (insert_item _ i _) 0).items = 0
        rw [hins]
        exact h0)
      constructor
      · rw [hloop.1]
        show cellAt (insert_item _ i _) 0 = _
        rw [hins]
        rfl
      · rw [hloop.2]
        show (insert_item _ i _).cellZeroInserts = _
        rw [hzc]

/-! ### Checked trace lemmas -/

theorem runOpC_reloc (fuel : Nat) (st : AllocState) (o : MOp)
    (st1 : AllocState) (h : runOpC fuel st o = some st1) :
    st.relocations ≤ st1.relocations := by
  cases o with
  | alloc x =>
    simp only [runOpC] at h
    rcases hal : mem_alloc fuel st x with _ | r
    · rw [hal] at h
      simp at h
    · rw [hal] at h
      simp only [Option.map_some', Option.some.injEq] at h
      rw [← h]
      exact (reloc_mono fuel).1 st x r hal
  | free p =>
    simp only [runOpC] at h
    by_cases hvf : validFree st p = true
    · rw [if_pos hvf] at h
      rcases hmf : mem_free fuel st p with _ | c
      · rw [hmf] at h
        simp at h
      · rw [hmf] at h
        simp only [Option.map_some', Option.some.injEq] at h
        rw [← h, mem_free_reloc fuel st p c hmf]
    · rw [if_neg hvf] at h
      simp at h

theorem runOpsC_reloc (fuel : Nat) (ops : List MOp) :
    ∀ (st st' : AllocState), runOpsC fuel st ops = some st' →
      st.relocations ≤ st'.relocations := by
  induction ops with
  | nil =>
    intro st st' h
    simp only [runOpsC, Option.some.injEq] at h
    rw [← h]
  | cons o rest ih =>
    intro st st' h
    rw [runOpsC] at h
    rcases ho : runOpC fuel st o with _ | st1
    · rw [ho] at h
      simp at h
    · rw [ho] at h
      exact le_trans (runOpC_reloc fuel st o st1 ho) (ih st1 st' h)

theorem runOpC_ladder (fuel : Nat) (st : AllocState) (o : MOp)
    (st1 : AllocState) (hinv : ladderInv st.data)
    (h : runOpC fuel st o = some st1) : ladderInv st1.data := by
  cases o with
  | alloc x =>
    simp only [runOpC] at h
    exact runOp_ladder fuel st (MOp.alloc x) st1 hinv h
  | free p =>
    simp only [runOpC] at h
    by_cases hvf : validFree st p = true
    · rw [if_pos hvf] at h
      exact runOp_ladder fuel st (MOp.free p) st1 hinv h
    · rw [if_neg hvf] at h
      simp at h

theorem runOpsC_cell0 (fuel : Nat) (ops : List MOp) :
    ∀ (st st' : AllocState), runOpsC fuel st ops = some st' →
      st'.relocations = st.relocations → ladderInv st.data →
      (cellAt st 0).items = 0 →
      (cellAt st' 0).items = 0 ∧
        st'.cellZeroInserts = st.cellZeroInserts := by
  induction ops with
  | nil =>
    intro st st' h _ _ h0
    simp only [runOpsC, Option.some.injEq] at h
    rw [← h]
    exact ⟨h0, rfl⟩
  | cons o rest ih =>
    intro st st' h hrel hinv h0
    rw [runOpsC] at h
    rcases ho : runOpC fuel st o with _ | st1
    · rw [ho] at h
      simp at h
    · rw [ho] at h
      have hrel1 : st1.relocations = st.relocations := by
        have h1 := runOpC_reloc fuel st o st1 ho
        have h2 := runOpsC_reloc fuel rest st1 st' h
        omega
      have hstep : cellAt st1 0 = cellAt st 0 ∧
          st1.cellZeroInserts = st.cellZeroInserts := by
        cases o with
        | alloc x =>
          simp only [runOpC] at ho
          rcases hal : mem_alloc fuel st x with _ | r
          · rw [hal] at ho
            simp at ho
          · rw [hal] at ho
            simp only [Option.map_some', Option.some.injEq] at ho
            rw [← ho]
            exact (alloc_cell0 fuel).1 st x r hal (by rw [ho, hrel1]) hinv h0
        | free p =>
          simp only [runOpC] at ho
          by_cases hvf : validFree st p = true
          · rw [if_pos hvf] at ho
            rcases hmf : mem_free fuel st p with _ | c
            · rw [hmf] at ho
              simp at ho
            · rw [hmf] at ho
              simp only [Option.map_some', Option.some.injEq] at ho
              rw [← ho]
              exact mem_free_cell0 fuel st p c hmf hinv h0 hvf
          · rw [if_neg hvf] at ho
            simp at ho
      have hinv1 := runOpC_ladder fuel st o st1 hinv ho
      have hrec := ih st1 st' h (by omega) hinv1 (by rw [hstep.1]; exact h0)
      exact ⟨hrec.1, hrec.2.trans hstep.2⟩

/-! ### Claim C10 -/

/-- C10: starting at `mem_init`, along any terminating sequence of
`mem_alloc` and valid `mem_free` calls (valid meaning the freed
pointer's header holds the size of a ladder cell of index at least 1,
which every engine-created block satisfies) during which the cell array
is never relocated, the free list of cell 0 stays empty and no
insertion ever targets cell 0: `split_item` only files children at
indexes `i - 4 ≥ 1` and `i - 1 ≥ 4`, the chunk path uses the ladder's
last term, the coalescer only moves upward, and `mem_free` re-files a
block at the index matching its header size, which is never cell 0's
size. -/
theorem cell_zero_stays_empty (g : Nat → Nat) (fuel : Nat) (ops : List MOp)
    (st' : AllocState) (h : runOpsC fuel (mem_init g) ops = some st')
    (hrel : st'.relocations = 0) :
    (cellAt st' 0).items = 0 ∧ st'.cellZeroInserts = 0 := by
  have h0 : (cellAt (mem_init g) 0).items = 0 := rfl
  have hz : (mem_init g).cellZeroInserts = 0 := rfl
  have := runOpsC_cell0 fuel ops (mem_init g) st' h (by rw [hrel]; rfl)
    initCells_ladderInv h0
  exact ⟨this.1, this.2.trans hz⟩

/-- Witness for C10: a concrete trace with an allocation and a valid
free of the returned area (the area address 592 is what the fresh-state
`mem_alloc 1` returns). -/
theorem cell_zero_stays_empty_witness :
    ∃ st' : AllocState,
      runOpsC 50 (mem_init fun _ => 0) [MOp.alloc 1, MOp.free 592] =
        some st' ∧
      st'.relocations = 0 ∧
      (cellAt st' 0).items = 0 ∧ st'.cellZeroInserts = 0 := by
  have hsome : (runOpsC 50 (mem_init fun _ => 0)
      [MOp.alloc 1, MOp.free 592]).isSome = true := by decide
  rcases hrun : runOpsC 50 (mem_init fun _ => 0) [MOp.alloc 1, MOp.free 592]
      with _ | st'
  · rw [hrun] at hsome
    simp at hsome
  · have hrel : st'.relocations = 0 := by
      have : (runOpsC 50 (mem_init fun _ => 0)
          [MOp.alloc 1, MOp.free 592]).map AllocState.relocations =
          some 0 := by decide
      rw [hrun] at this
      simpa using this
    exact ⟨st', rfl, hrel,
      cell_zero_stays_empty (fun _ => 0) 50 [MOp.alloc 1, MOp.free 592]
        st' hrun hrel⟩

/-! ### Extension-loop characterization -/

theorem splitLoop_chunks (fuel : Nat) : ∀ (st : AllocState) (i item n : Nat),
    (splitLoop fuel st i item n).1.chunks = st.chunks := by
  induction fuel with
  | zero =>
    intro st i item n
    rw [splitLoop]
    split <;> rfl
  | succ f ih =>
    intro st i item n
    rw [splitLoop]
    split
    · dsimp only
      split
      · rw [ih]
        rfl
      · rw [ih]
        rfl
    · rfl

theorem array_inc_size_no_reloc (fuel : Nat) (st st1 : AllocState)
    (h : array_inc_size fuel st = some st1)
    (hrel : st1.relocations = st.relocations) :
    st1.data = st.data ++ [⟨(cellAt st (st.data.length - 1)).size +
      (cellAt st (st.data.length - 4)).size, 0⟩] ∧
    st1.chunks = st.chunks := by
  cases fuel with
  | zero => simp [array_inc_size] at h
  | succ f =>
    rw [array_inc_size_succ] at h
    dsimp only at h
    by_cases hcap : st.data.length + 1 = st.capacity
    · rw [if_pos (by simpa using hcap)] at h
      rcases hal : mem_alloc f { st with
          data := st.data ++ [⟨(cellAt st (st.data.length - 1)).size +
            (cellAt st (st.data.length - 4)).size, 0⟩]
          capacity := 2 * st.capacity
          relocations := st.relocations + 1 } (2 * st.capacity * 16)
          with _ | r3
      · rw [hal] at h
        simp at h
      · rw [hal] at h
        dsimp only at h
        have h3 := (reloc_mono f).1 _ _ r3 hal
        split at h
        · simp at h
        · rename_i c hmf
          simp only [Option.some.injEq] at h
          have h4 := mem_free_reloc f _ _ c hmf
          have h5 : c.st.relocations = r3.1.relocations := h4
          simp only at h3
          rw [← h] at hrel
          omega
    · rw [if_neg (by simpa using hcap)] at h
      simp only [Option.some.injEq] at h
      rw [← h]
      exact ⟨rfl, rfl⟩

theorem extLoop_spec (fuel : Nat) : ∀ (st : AllocState) (i n : Nat)
    (r : AllocState × Nat), extLoop fuel st i n = some r →
    r.1.relocations = st.relocations → ladderInv st.data →
    i + 1 = st.data.length →
    r.2 + 1 = r.1.data.length ∧
    st.data.length ≤ r.2 ∧
    n ≤ (cellAt r.1 r.2).size ∧
    (∀ j, st.data.length ≤ j → j < r.2 → (cellAt r.1 j).size < n) ∧
    (∀ j, j < st.data.length → (cellAt r.1 j).size = (cellAt st j).size) ∧
    r.1.chunks = st.chunks := by
  induction fuel with
  | zero =>
    intro st i n r h
    simp [extLoop] at h
  | succ f ih =>
    intro st i n r h hrel hinv hstart
    rw [extLoop_succ] at h
    rcases hinc : array_inc_size f st with _ | st1
    · rw [hinc] at h
      simp at h
    · rw [hinc] at h
      dsimp only at h
      have hrel1 : st1.relocations = st.relocations := by
        have h1 := (reloc_mono f).2.2 st st1 hinc
        by_cases hlt : (cellAt st1 (i + 1)).size < n
        · rw [if_pos hlt] at h
          have h2 := (reloc_mono f).2.1 st1 (i + 1) n r h
          omega
        · rw [if_neg hlt] at h
          simp only [Option.some.injEq] at h
          rw [← h] at hrel
          have hrel2 : st1.relocations = st.relocations := hrel
          omega
      obtain ⟨hdata, hchunks⟩ := array_inc_size_no_reloc f st st1 hinc hrel1
      have hlen1 : st1.data.length = st.data.length + 1 := by
        rw [hdata]
        simp
      have hold1 : ∀ j, j < st.data.length →
          (cellAt st1 j).size = (cellAt st j).size := by
        intro j hj
        simp only [cellAt, hdata]
        rw [List.getD_append _ _ _ _ hj]
      have hnew : cellAt st1 (i + 1) =
          ⟨(cellAt st (st.data.length - 1)).size +
            (cellAt st (st.data.length - 4)).size, 0⟩ := by
        simp only [cellAt, hdata]
        rw [List.getD_append_right _ _ _ _ (by omega),
          show i + 1 - st.data.length = 0 from by omega]
        rfl
      have hinv1 := (ladder_preserved f).2.2 st st1 hinv hinc
      by_cases hlt : (cellAt st1 (i + 1)).size < n
      · rw [if_pos hlt] at h
        have hrec := ih st1 (i + 1) n r h (by omega) hinv1 (by omega)
        refine ⟨hrec.1, by omega, hrec.2.2.1, ?_, ?_, hrec.2.2.2.2.2.trans hchunks⟩
        · intro j hj1 hj2
          rcases Nat.lt_or_ge j st1.data.length with hc | hc
          · have hje : j = i + 1 := by omega
            rw [hje]
            rw [hrec.2.2.2.2.1 (i + 1) (by omega)]
            exact hlt
          · exact hrec.2.2.2.1 j (by omega) hj2
        · intro j hj
          rw [hrec.2.2.2.2.1 j (by omega)]
          exact hold1 j hj
      · rw [if_neg hlt] at h
        simp only [Option.some.injEq] at h
        rw [← h]
        refine ⟨?_, ?_, ?_, ?_, ?_, ?_⟩
        · show i + 1 + 1 = st1.data.length
          omega
        · show st.data.length ≤ i + 1
          omega
        · show n ≤ (cellAt st1 (i + 1)).size
          omega
        · intro j hj1 hj2
          have hj3 : j < i + 1 := hj2
          exact absurd hj3 (by omega)
        · intro j hj
          show (cellAt st1 j).size = (cellAt st j).size
          exact hold1 j hj
        · show st1.chunks = st.chunks
          exact hchunks

/-! ### Helpers for the split/merge round trip -/

theorem setItems_mem (st : AllocState) (i p : Nat) :
    (setItems st i p).mem = st.mem := rfl

theorem setItems_length (st : AllocState) (i p : Nat) :
    (setItems st i p).data.length = st.data.length := by
  simp [setItems]

theorem insert_item_length (st : AllocState) (i b : Nat) :
    (insert_item st i b).data.length = st.data.length := by
  simp [insert_item_data]

theorem cellAt_setItems_self (st : AllocState) (i p : Nat)
    (h : i < st.data.length) :
    cellAt (setItems st i p) i = ⟨(cellAt st i).size, p⟩ := by
  simp only [cellAt, setItems]
  rw [List.getD_eq_getElem?_getD, List.getElem?_set_eq_of_lt _ h]
  rfl

theorem cellAt_insert_item_self (st : AllocState) (i b : Nat)
    (h : i < st.data.length) :
    cellAt (insert_item st i b) i = ⟨(cellAt st i).size, b⟩ := by
  simp only [cellAt, insert_item_data]
  rw [List.getD_eq_getElem?_getD, List.getElem?_set_eq_of_lt _ h]
  rfl

/-- Inserting into a cell whose list is empty performs exactly the two
link writes `next(b) := 0` and `prev(b) := 0`. -/
theorem insert_item_mem_empty (st : AllocState) (i b : Nat)
    (h : (cellAt st i).items = 0) :
    (insert_item st i b).mem = wr (wr st.mem (b + 16) 0) (b + 8) 0 := by
  simp [insert_item, item_set_next, item_set_prev, setItems, h]

/-- Deleting the sole element of a cell's list resets the cell head and
leaves memory untouched (the element's links are both null). -/
theorem delete_item_single (st : AllocState) (i item : Nat)
    (hhead : (cellAt st i).items = item) (hitem : item ≠ 0)
    (hprev : item_get_prev st.mem item = 0)
    (hnext : item_get_next st.mem item = 0)
    (hna : 8 ≤ st.nextAddr) :
    delete_item st i item = setItems st i 0 := by
  obtain ⟨b, hb⟩ : ∃ b, st.nextAddr / 8 = b + 1 :=
    ⟨st.nextAddr / 8 - 1, by omega⟩
  simp only [delete_item, hb, delFind, hhead]
  simp [hitem, hprev, hnext]

/-- C5: split followed by merge is the identity on the parent's header.
For a free whole block of ladder index `i > 4` (header size equal to
`ladder[i].size`, arbitrary `lr`/`inh`, `in_use = 0`) that one
`split_item` iteration splits into its two children (filed in cells
`i - 1` and `i - 4`), the children's `inh` bits carry the parent's `lr`
and `inh`; one `coalesce` iteration started at the left child fires
(the buddy is free and whole) and rebuilds, at the parent's address, a
block filed at index `i` whose header has the parent's original size,
`lr` and `inh`, with `in_use = 0`. -/
theorem split_then_merge_identity
    (st : AllocState) (i item szl szr right : Nat)
    (stS : AllocState) (c0 : CoalArgs)
    (hszl_def : szl = (cellAt st (i - 4)).size)
    (hszr_def : szr = (cellAt st (i - 1)).size)
    (hright : right = item + szl * BLOCK_SIZE)
    (hstS : stS = insert_item
      (insert_item { st with mem := splitWrite st.mem item szl szr }
        (i - 1) right) (i - 4) item)
    (hc0 : c0 = coalesceEntry stS (i - 4))
    (hlen : i < st.data.length)
    (hi : 4 < i)
    (hitem : item ≠ 0)
    (hna : 8 ≤ st.nextAddr)
    (hszl3 : 3 ≤ szl)
    (hszl61 : szl < 2 ^ 61)
    (hszr61 : szr < 2 ^ 61)
    (hsz61 : (cellAt st i).size < 2 ^ 61)
    (hpsize : item_get_size st.mem item = (cellAt st i).size)
    (hiu : item_is_in_use st.mem item = false)
    (hempty_l : (cellAt st (i - 4)).items = 0)
    (hempty_r : (cellAt st (i - 1)).items = 0)
    (hempty_p : (cellAt st i).items = 0) :
    item_get_inh_bit stS.mem item = item_get_lr_bit st.mem item ∧
    item_get_inh_bit stS.mem right = item_get_inh_bit st.mem item ∧
    c0.item = item ∧ c0.buddy = right ∧ c0.ibuddy = i - 1 ∧
    coalesceCond c0 = true ∧
    (coalesceBody c0).item = item ∧
    (coalesceBody c0).i = i ∧
    item_get_size (coalesceBody c0).st.mem item = item_get_size st.mem item ∧
    item_get_lr_bit (coalesceBody c0).st.mem item =
      item_get_lr_bit st.mem item ∧
    item_get_inh_bit (coalesceBody c0).st.mem item =
      item_get_inh_bit st.mem item ∧
    item_is_in_use (coalesceBody c0).st.mem item = false ∧
    (cellAt (coalesceBody c0).st i).items = item := by
  subst hc0
  have hr8 : right = item + szl * 8 := by
    rw [hright, show BLOCK_SIZE = 8 from rfl]
  have hS := splitWrite_spec st.mem item szl szr (by omega) hszl61 hszr61
  obtain ⟨lrP, hlrP⟩ : ∃ b, item_get_lr_bit st.mem item = b := ⟨_, rfl⟩
  obtain ⟨inhP, hinhP⟩ : ∃ b, item_get_inh_bit st.mem item = b := ⟨_, rfl⟩
  rw [hlrP, hinhP] at hS ⊢
  have hA : (cellAt { st with mem := splitWrite st.mem item szl szr }
      (i - 1)).items = 0 := hempty_r
  have hAmem : (insert_item
      { st with mem := splitWrite st.mem item szl szr } (i - 1) right).mem =
      wr (wr (splitWrite st.mem item szl szr) (right + 16) 0)
        (right + 8) 0 :=
    insert_item_mem_empty _ _ _ hA
  have hBempty : (cellAt (insert_item
      { st with mem := splitWrite st.mem item szl szr } (i - 1) right)
      (i - 4)).items = 0 := by
    rw [cellAt_insert_item_ne _ _ _ _ (show i - 1 ≠ i - 4 by omega)]
    exact hempty_l
  have hstmem : stS.mem =
      wr (wr (wr (wr (splitWrite st.mem item szl szr) (right + 16) 0)
        (right + 8) 0) (item + 16) 0) (item + 8) 0 := by
    rw [hstS, insert_item_mem_empty _ _ _ hBempty, hAmem]
  have hrdL : rd stS.mem item = rd (splitWrite st.mem item szl szr) item := by
    rw [hstmem, rd_wr_ne _ (item + 8) 0 item (by omega),
      rd_wr_ne _ (item + 16) 0 item (by omega),
      rd_wr_ne _ (right + 8) 0 item (by omega),
      rd_wr_ne _ (right + 16) 0 item (by omega)]
  have hrdR : rd stS.mem right =
      rd (splitWrite st.mem item szl szr) right := by
    rw [hstmem, rd_wr_ne _ (item + 8) 0 right (by omega),
      rd_wr_ne _ (item + 16) 0 right (by omega),
      rd_wr_ne _ (right + 8) 0 right (by omega),
      rd_wr_ne _ (right + 16) 0 right (by omega)]
  have hLsize : item_get_size stS.mem item = szl := by
    simpa only [item_get_size, hrdL] using hS.1
  have hLlr : item_get_lr_bit stS.mem item = false := by
    simpa only [item_get_lr_bit, hrdL] using hS.2.2.1
  have hLinh : item_get_inh_bit stS.mem item = lrP := by
    simpa only [item_get_inh_bit, hrdL] using hS.2.2.2.2.2.2.1
  have hRsize : item_get_size stS.mem right = szr := by
    have h := hS.2.1
    rw [← hright] at h
    simpa only [item_get_size, hrdR] using h
  have hRiu : item_is_in_use stS.mem right = false := by
    have h := hS.2.2.2.2.2.1
    rw [← hright] at h
    simpa only [item_is_in_use, hrdR] using h
  have hRinh : item_get_inh_bit stS.mem right = inhP := by
    have h := hS.2.2.2.2.2.2.2
    rw [← hright] at h
    simpa only [item_get_inh_bit, hrdR] using h
  have hLprev : item_get_prev stS.mem item = 0 := by
    simp only [item_get_prev, hstmem, rd_wr_same]
  have hLnext : item_get_next stS.mem item = 0 := by
    simp only [item_get_next, hstmem]
    rw [rd_wr_ne _ (item + 8) 0 (item + 16) (by omega), rd_wr_same]
  have hRprev : item_get_prev stS.mem right = 0 := by
    simp only [item_get_prev, hstmem]
    rw [rd_wr_ne _ (item + 8) 0 (right + 8) (by omega),
      rd_wr_ne _ (item + 16) 0 (right + 8) (by omega), rd_wr_same]
  have hRnext : item_get_next stS.mem right = 0 := by
    simp only [item_get_next, hstmem]
    rw [rd_wr_ne _ (item + 8) 0 (right + 16) (by omega),
      rd_wr_ne _ (item + 16) 0 (right + 16) (by omega),
      rd_wr_ne _ (right + 8) 0 (right + 16) (by omega), rd_wr_same]
  have hlenS : stS.data.length = st.data.length := by
    rw [hstS, insert_item_length, insert_item_length]
  have hcellL : cellAt stS (i - 4) = ⟨(cellAt st (i - 4)).size, item⟩ := by
    have hlt : i - 4 < (insert_item
        { st with mem := splitWrite st.mem item szl szr }
        (i - 1) right).data.length := by
      rw [insert_item_length]
      show i - 4 < st.data.length
      omega
    rw [hstS, cellAt_insert_item_self _ _ _ hlt,
      cellAt_insert_item_ne _ _ _ _ (show i - 1 ≠ i - 4 by omega)]
    rfl
  have hcellR : cellAt stS (i - 1) = ⟨(cellAt st (i - 1)).size, right⟩ := by
    have hlt : i - 1 <
        ({ st with mem := splitWrite st.mem item szl szr } :
          AllocState).data.length := by
      show i - 1 < st.data.length
      omega
    rw [hstS, cellAt_insert_item_ne _ _ _ _ (show i - 4 ≠ i - 1 by omega),
      cellAt_insert_item_self _ _ _ hlt]
    rfl
  have hcellP : cellAt stS i = cellAt st i := by
    rw [hstS, cellAt_insert_item_ne _ _ _ _ (show i - 4 ≠ i by omega),
      cellAt_insert_item_ne _ _ _ _ (show i - 1 ≠ i by omega)]
    rfl
  have hbud : item_get_buddy stS item (i - 4) = (right, i - 1) := by
    unfold item_get_buddy
    rw [hLlr, if_pos rfl, hLsize, ← hright,
      show i - 4 + 3 = i - 1 from by omega]
  have hentry : coalesceEntry stS (i - 4) =
      ⟨stS, i - 4, item, right, i - 1⟩ := by
    simp only [coalesceEntry, hcellL, hbud]
  have hcond : coalesceCond (coalesceEntry stS (i - 4)) = true := by
    rw [hentry]
    show (!(item_is_in_use stS.mem right) &&
      ((cellAt stS (i - 1)).size == item_get_size stS.mem right)) = true
    rw [hRiu, hRsize, hcellR, hszr_def]
    simp
  have hnaS : stS.nextAddr = st.nextAddr := by
    rw [hstS]
    rfl
  have hdel1 : delete_item stS (i - 4) item = setItems stS (i - 4) 0 := by
    refine delete_item_single _ _ _ ?_ hitem hLprev hLnext ?_
    · rw [hcellL]
    · rw [hnaS]
      exact hna
  have hhead2 : (cellAt (setItems stS (i - 4) 0) (i - 1)).items = right := by
    rw [cellAt_setItems_ne _ _ _ _ (show i - 4 ≠ i - 1 by omega), hcellR]
  have hdel2 : delete_item (setItems stS (i - 4) 0) (i - 1) right =
      setItems (setItems stS (i - 4) 0) (i - 1) 0 := by
    refine delete_item_single _ _ _ hhead2 (by omega) ?_ ?_ ?_
    · show item_get_prev stS.mem right = 0
      exact hRprev
    · show item_get_next stS.mem right = 0
      exact hRnext
    · show 8 ≤ stS.nextAddr
      rw [hnaS]
      exact hna
  have hcell2P : cellAt (setItems (setItems stS (i - 4) 0) (i - 1) 0) i =
      cellAt st i := by
    rw [cellAt_setItems_ne _ _ _ _ (show i - 1 ≠ i by omega),
      cellAt_setItems_ne _ _ _ _ (show i - 4 ≠ i by omega), hcellP]
  have hbody_item : (coalesceBody (coalesceEntry stS (i - 4))).item = item := by
    rw [hentry]
    simp only [coalesceBody]
    rw [hdel1, hdel2]
    simp only [setItems_mem]
    simp only [hLlr, eq_self_iff_true, if_true]
  have hbody_i : (coalesceBody (coalesceEntry stS (i - 4))).i = i := by
    rw [hentry]
    simp only [coalesceBody]
    rw [hdel1, hdel2]
    simp only [setItems_mem]
    simp only [hLlr, eq_self_iff_true, if_true]
    omega
  have hbody_st : (coalesceBody (coalesceEntry stS (i - 4))).st =
      insert_item { setItems (setItems stS (i - 4) 0) (i - 1) 0 with
        mem := item_set_in_use (item_set_size (item_set_inh_bit
          (item_set_lr_bit stS.mem item lrP)
          item inhP) item
          (cellAt st i).size) item false } i item := by
    rw [hentry]
    simp only [coalesceBody]
    rw [hdel1, hdel2]
    simp only [setItems_mem]
    simp only [hLlr, eq_self_iff_true, if_true]
    rw [show i - 4 + 4 = i from by omega, hcell2P, hLinh, hRinh]
  have hST3items : (cellAt { setItems (setItems stS (i - 4) 0) (i - 1) 0 with
      mem := item_set_in_use (item_set_size (item_set_inh_bit
        (item_set_lr_bit stS.mem item lrP)
        item inhP) item
        (cellAt st i).size) item false } i).items = 0 := by
    show (cellAt (setItems (setItems stS (i - 4) 0) (i - 1) 0) i).items = 0
    rw [hcell2P]
    exact hempty_p
  have hmemF : (insert_item { setItems (setItems stS (i - 4) 0) (i - 1) 0 with
      mem := item_set_in_use (item_set_size (item_set_inh_bit
        (item_set_lr_bit stS.mem item lrP)
        item inhP) item
        (cellAt st i).size) item false } i item).mem =
      wr (wr (item_set_in_use (item_set_size (item_set_inh_bit
        (item_set_lr_bit stS.mem item lrP)
        item inhP) item
        (cellAt st i).size) item false) (item + 16) 0) (item + 8) 0 := by
    rw [insert_item_mem_empty _ _ _ hST3items]
  have hrdF : rd (insert_item
      { setItems (setItems stS (i - 4) 0) (i - 1) 0 with
        mem := item_set_in_use (item_set_size (item_set_inh_bit
          (item_set_lr_bit stS.mem item lrP)
          item inhP) item
          (cellAt st i).size) item false } i item).mem item =
      item_set_in_use_w (item_set_size_w (item_set_inh_bit_w
        (item_set_lr_bit_w (rd stS.mem item)
          lrP)
        inhP) (cellAt st i).size) false := by
    rw [hmemF, rd_wr_ne _ (item + 8) 0 item (by omega),
      rd_wr_ne _ (item + 16) 0 item (by omega)]
    simp only [item_set_in_use, item_set_size, item_set_inh_bit,
      item_set_lr_bit, rd_wr_same]
  have hlt3 : i < ({ setItems (setItems stS (i - 4) 0) (i - 1) 0 with
      mem := item_set_in_use (item_set_size (item_set_inh_bit
        (item_set_lr_bit stS.mem item lrP)
        item inhP) item
        (cellAt st i).size) item false } : AllocState).data.length := by
    show i < (setItems (setItems stS (i - 4) 0) (i - 1) 0).data.length
    rw [setItems_length, setItems_length, hlenS]
    exact hlen
  refine ⟨hLinh, hRinh, ?_, ?_, ?_, hcond, hbody_item, hbody_i,
    ?_, ?_, ?_, ?_, ?_⟩
  · show (cellAt stS (i - 4)).items = item
    rw [hcellL]
  · show (item_get_buddy stS (cellAt stS (i - 4)).items (i - 4)).1 = right
    rw [hcellL]
    show (item_get_buddy stS item (i - 4)).1 = right
    rw [hbud]
  · show (item_get_buddy stS (cellAt stS (i - 4)).items (i - 4)).2 = i - 1
    rw [hcellL]
    show (item_get_buddy stS item (i - 4)).2 = i - 1
    rw [hbud]
  · rw [hbody_st]
    simp only [item_get_size]
    rw [hrdF, get_size_set_in_use_w, get_size_set_size_w _ _ hsz61]
    exact hpsize.symm
  · rw [hbody_st]
    simp only [item_get_lr_bit]
    rw [hrdF, get_lr_set_iu_w, get_lr_set_size_w, get_lr_set_inh_w,
      get_lr_set_lr_w]
  · rw [hbody_st]
    simp only [item_get_inh_bit]
    rw [hrdF, get_inh_set_iu_w, get_inh_set_size_w, get_inh_set_inh_w]
  · rw [hbody_st]
    simp only [item_is_in_use]
    rw [hrdF, get_iu_set_iu_w]
  · rw [hbody_st, cellAt_insert_item_self _ _ _ hlt3]

/-- Witness for C5: a concrete split/merge round trip of the size-50
block at address 100000 in the fresh state. -/
theorem split_then_merge_identity_witness :
    (4 < 9 ∧ (cellAt stC5 9).items = 0 ∧
      item_get_size stC5.mem 100000 = (cellAt stC5 9).size) ∧
    coalesceCond (coalesceEntry stC5s 5) = true ∧
    (coalesceBody (coalesceEntry stC5s 5)).item = 100000 ∧
    (coalesceBody (coalesceEntry stC5s 5)).i = 9 ∧
    item_get_size (coalesceBody (coalesceEntry stC5s 5)).st.mem 100000 =
      item_get_size stC5.mem 100000 ∧
    item_get_lr_bit (coalesceBody (coalesceEntry stC5s 5)).st.mem 100000 =
      item_get_lr_bit stC5.mem 100000 ∧
    item_get_inh_bit (coalesceBody (coalesceEntry stC5s 5)).st.mem 100000 =
      item_get_inh_bit stC5.mem 100000 ∧
    item_is_in_use (coalesceBody (coalesceEntry stC5s 5)).st.mem 100000 =
      false ∧
    (cellAt (coalesceBody (coalesceEntry stC5s 5)).st 9).items = 100000 := by
  have h := split_then_merge_identity stC5 9 100000 14 36
    (100000 + 14 * BLOCK_SIZE) stC5s (coalesceEntry stC5s 5)
    (by decide) (by decide) rfl rfl rfl (by decide) (by decide) (by decide)
    (by decide) (by decide) (by decide) (by decide) (by decide) (by decide)
    (by decide) (by decide) (by decide) (by decide)
  exact ⟨⟨by decide, by decide, by decide⟩, h.2.2.2.2.2.1,
    h.2.2.2.2.2.2.1, h.2.2.2.2.2.2.2.1, h.2.2.2.2.2.2.2.2.1,
    h.2.2.2.2.2.2.2.2.2.1, h.2.2.2.2.2.2.2.2.2.2.1,
    h.2.2.2.2.2.2.2.2.2.2.2.1, h.2.2.2.2.2.2.2.2.2.2.2.2⟩

/-! ### Helpers for the coverage claim -/

theorem ladder_min3 {l : List Cell} (hl : ladderInv l) :
    ∀ i, i < l.length → 3 ≤ (l.getD i ⟨0, 0⟩).size := by
  obtain ⟨⟨hlen, h0, h1, h2, h3⟩, har⟩ := hl
  intro i
  induction i using Nat.strong_induction_on with
  | _ i ih =>
    intro hi
    rcases Nat.lt_or_ge i 4 with h4 | h4
    · interval_cases i
      · rw [h0]; decide
      · rw [h1]; decide
      · rw [h2]; decide
      · rw [h3]; decide
    · have heq := har i hi h4
      have hpos := ih (i - 4) (by omega) (by omega)
      omega

/-- Reading an address not touched by an `insert_item` sees the old
memory. -/
theorem rd_insert_item_ne (st : AllocState) (j b a : Nat)
    (h1 : a ≠ b + 16) (h2 : a ≠ b + 8)
    (h3 : (cellAt st j).items ≠ 0 → a ≠ (cellAt st j).items + 8) :
    rd (insert_item st j b).mem a = rd st.mem a := by
  by_cases h0 : (cellAt st j).items = 0
  · rw [insert_item_mem_empty _ _ _ h0, rd_wr_ne _ _ _ _ h2,
      rd_wr_ne _ _ _ _ h1]
  · have hm : (insert_item st j b).mem =
        wr (wr (wr st.mem (b + 16) (cellAt st j).items)
          ((cellAt st j).items + 8) b) (b + 8) 0 := by
      simp [insert_item, item_set_next, item_set_prev, setItems, h0]
    rw [hm, rd_wr_ne _ _ _ _ h2, rd_wr_ne _ _ _ _ (h3 h0),
      rd_wr_ne _ _ _ _ h1]

/-- Reading an address not touched by a `take_item` sees the old
memory. -/
theorem rd_take_item_ne (st : AllocState) (j a : Nat)
    (h : item_get_next st.mem (cellAt st j).items ≠ 0 →
      a ≠ item_get_next st.mem (cellAt st j).items + 8) :
    rd (take_item st j).1.mem a = rd st.mem a := by
  by_cases h0 : item_get_next st.mem (cellAt st j).items = 0
  · show rd (if _ ≠ 0 then _ else st.mem) a = rd st.mem a
    rw [if_neg (by simpa using h0)]
  · show rd (if _ ≠ 0 then _ else st.mem) a = rd st.mem a
    rw [if_pos (by simpa using h0)]
    exact rd_wr_ne _ _ _ _ (h h0)

/-- The cell sizes are untouched by `insert_item`. -/
theorem cellAt_size_insert_item (st : AllocState) (j b k : Nat) :
    (cellAt (insert_item st j b) k).size = (cellAt st k).size :=
  sizeAt_eq_of_map_eq (sizesOf_insert_item st j b) k

/-- The cell sizes are untouched by `take_item`. -/
theorem cellAt_size_take_item (st : AllocState) (j k : Nat) :
    (cellAt (take_item st j).1 k).size = (cellAt st k).size :=
  sizeAt_eq_of_map_eq (sizesOf_take_item st j) k

/-- Under no relocation, `array_inc_size` is exactly the one-cell
append, as a full state equation. -/
theorem array_inc_size_no_reloc_state (fuel : Nat) (st st1 : AllocState)
    (h : array_inc_size fuel st = some st1)
    (hrel : st1.relocations = st.relocations) :
    st1 = { st with data := st.data ++
      [⟨(cellAt st (st.data.length - 1)).size +
        (cellAt st (st.data.length - 4)).size, 0⟩] } := by
  cases fuel with
  | zero => simp [array_inc_size] at h
  | succ f =>
    rw [array_inc_size_succ] at h
    dsimp only at h
    by_cases hcap : st.data.length + 1 = st.capacity
    · rw [if_pos (by simpa using hcap)] at h
      rcases hal : mem_alloc f { st with
          data := st.data ++ [⟨(cellAt st (st.data.length - 1)).size +
            (cellAt st (st.data.length - 4)).size, 0⟩]
          capacity := 2 * st.capacity
          relocations := st.relocations + 1 } (2 * st.capacity * 16)
          with _ | r3
      · rw [hal] at h
        simp at h
      · rw [hal] at h
        dsimp only at h
        have h3 := (reloc_mono f).1 _ _ r3 hal
        split at h
        · simp at h
        · rename_i c hmf
          simp only [Option.some.injEq] at h
          have h4 := mem_free_reloc f _ _ c hmf
          have h5 : c.st.relocations = r3.1.relocations := h4
          simp only at h3
          rw [← h] at hrel
          omega
    · rw [if_neg (by simpa using hcap)] at h
      simp only [Option.some.injEq] at h
      exact h.symm

/-- Under no relocation, the extension loop only appends cells: the
memory, the allocation cursor, the chunk list head, the data-area
pointer and the capacity are unchanged, the old cells are intact, and
every appended cell has an empty free list. -/
theorem extLoop_frame (fuel : Nat) : ∀ (st : AllocState) (i n : Nat)
    (r : AllocState × Nat), extLoop fuel st i n = some r →
    r.1.relocations = st.relocations →
    r.1.mem = st.mem ∧ r.1.nextAddr = st.nextAddr ∧
    r.1.memList = st.memList ∧ r.1.dataArea = st.dataArea ∧
    r.1.capacity = st.capacity ∧
    st.data.length ≤ r.1.data.length ∧
    (∀ j, j < st.data.length → cellAt r.1 j = cellAt st j) ∧
    (∀ j, st.data.length ≤ j → j < r.1.data.length →
      (cellAt r.1 j).items = 0) := by
  induction fuel with
  | zero =>
    intro st i n r h
    simp [extLoop] at h
  | succ f ih =>
    intro st i n r h hrel
    rw [extLoop_succ] at h
    rcases ha : array_inc_size f st with _ | st1
    · rw [ha] at h
      simp at h
    · rw [ha] at h
      dsimp only at h
      have m1 := (reloc_mono f).2.2 st st1 ha
      split at h
      · rename_i hlt
        have m2 := (reloc_mono f).2.1 st1 (i + 1) n r h
        have hrel1 : st1.relocations = st.relocations := by omega
        have hstate := array_inc_size_no_reloc_state f st st1 ha hrel1
        have hf := ih st1 (i + 1) n r h (by omega)
        have hmem1 : st1.mem = st.mem := by rw [hstate]
        have hna1 : st1.nextAddr = st.nextAddr := by rw [hstate]
        have hml1 : st1.memList = st.memList := by rw [hstate]
        have hda1 : st1.dataArea = st.dataArea := by rw [hstate]
        have hcap1 : st1.capacity = st.capacity := by rw [hstate]
        have hlen1 : st1.data.length = st.data.length + 1 := by
          rw [hstate]
          simp
        have hcell1 : ∀ j, j < st.data.length → cellAt st1 j = cellAt st j := by
          intro j hj
          rw [hstate]
          simp only [cellAt]
          exact List.getD_append _ _ _ _ hj
        have hitem1 : (cellAt st1 st.data.length).items = 0 := by
          rw [hstate]
          simp only [cellAt]
          rw [List.getD_append_right _ _ _ _ (le_refl _), Nat.sub_self]
          rfl
        refine ⟨hf.1.trans hmem1, hf.2.1.trans hna1, hf.2.2.1.trans hml1,
          hf.2.2.2.1.trans hda1, hf.2.2.2.2.1.trans hcap1, ?_, ?_, ?_⟩
        · have := hf.2.2.2.2.2.1
          omega
        · intro j hj
          rw [hf.2.2.2.2.2.2.1 j (by omega), hcell1 j hj]
        · intro j hj1 hj2
          rcases Nat.lt_or_ge j st1.data.length with hc | hc
          · have hj3 : j = st.data.length := by omega
            rw [hf.2.2.2.2.2.2.1 j hc, hj3]
            exact hitem1
          · exact hf.2.2.2.2.2.2.2 j hc hj2
      · rename_i hge
        simp only [Option.some.injEq] at h
        have hr : r.1 = st1 := by rw [← h]
        rw [hr] at hrel
        have hstate := array_inc_size_no_reloc_state f st st1 ha hrel
        rw [hr, hstate]
        refine ⟨rfl, rfl, rfl, rfl, rfl, ?_, ?_, ?_⟩
        · simp
        · intro j hj
          simp only [cellAt]
          exact List.getD_append _ _ _ _ hj
        · intro j hj1 hj2
          simp only [cellAt]
          simp only [cellAt, List.length_append, List.length_cons,
            List.length_nil] at hj2
          have hj3 : j = st.data.length := by omega
          rw [hj3, List.getD_append_right _ _ _ _ (le_refl _), Nat.sub_self]
          rfl

theorem cellAt_mem_update (st : AllocState) (m : Mem) (k : Nat) :
    cellAt { st with mem := m } k = cellAt st k := rfl

theorem cellAt_insert_item_self' (st : AllocState) (m : Mem) (i b : Nat)
    (h : i < st.data.length) :
    cellAt (insert_item { st with mem := m } i b) i =
      ⟨(cellAt st i).size, b⟩ := by
  rw [cellAt_insert_item_self _ _ _
    (show i < ({ st with mem := m } : AllocState).data.length from h),
    cellAt_mem_update]

/-- Size guarantee of the splitting loop.  Under the ladder invariant
and the head-disjointness invariant (the block of every non-empty
cell's head does not overlap the block being split), the block finally
returned by `splitLoop` has header size at least `n`. -/
theorem splitLoop_size (fuel : Nat) : ∀ (st : AllocState) (i item n : Nat),
    ladderInv st.data →
    i < st.data.length →
    (∀ j, j < st.data.length → (cellAt st j).size < 2 ^ 61) →
    item_get_size st.mem item = (cellAt st i).size →
    n ≤ (cellAt st i).size →
    (∀ j, j < st.data.length → (cellAt st j).items ≠ 0 →
      rangesDisj (cellAt st j).items (8 * (cellAt st j).size)
        item (8 * (cellAt st i).size)) →
    n ≤ item_get_size (splitLoop fuel st i item n).1.mem
      (splitLoop fuel st i item n).2 := by
  induction fuel with
  | zero =>
    intro st i item n hinv hi hB hsz hn hdisj
    rw [splitLoop]
    split
    · show n ≤ item_get_size st.mem item
      rw [hsz]
      exact hn
    · show n ≤ item_get_size st.mem item
      rw [hsz]
      exact hn
  | succ f ih =>
    intro st i item n hinv hi hB hsz hn hdisj
    rw [splitLoop]
    split
    · rename_i hguard
      obtain ⟨hgn, hgi⟩ := hguard
      dsimp only
      have har : (cellAt st i).size =
          (cellAt st (i - 1)).size + (cellAt st (i - 4)).size :=
        hinv.2 i hi (by omega)
      have hm3l : 3 ≤ (cellAt st (i - 4)).size :=
        ladder_min3 hinv (i - 4) (by omega)
      have hm3r : 3 ≤ (cellAt st (i - 1)).size :=
        ladder_min3 hinv (i - 1) (by omega)
      have hBl : (cellAt st (i - 4)).size < 2 ^ 61 := hB (i - 4) (by omega)
      have hBr : (cellAt st (i - 1)).size < 2 ^ 61 := hB (i - 1) (by omega)
      have hS := splitWrite_spec st.mem item (cellAt st (i - 4)).size
        (cellAt st (i - 1)).size (by omega) hBl hBr
      split
      · rename_i hle
        refine ih _ (i - 4) item n ?_ ?_ ?_ ?_ ?_ ?_
        · exact ladderInv_of_sizes_eq (sizesOf_insert_item _ _ _).symm hinv
        · rw [insert_item_length]
          show i - 4 < st.data.length
          omega
        · intro j hj
          rw [insert_item_length] at hj
          rw [cellAt_size_insert_item, cellAt_mem_update]
          exact hB j hj
        · rw [cellAt_size_insert_item, cellAt_mem_update]
          have hrd : rd (insert_item
              { st with mem := (splitWrite st.mem item
                (cellAt st (i - 4)).size (cellAt st (i - 1)).size) }
              (i - 1) (item + (cellAt st (i - 4)).size * BLOCK_SIZE)).mem
              item =
              rd (splitWrite st.mem item (cellAt st (i - 4)).size
                (cellAt st (i - 1)).size) item := by
            refine rd_insert_item_ne _ _ _ _ ?_ ?_ ?_
            · simp only [show BLOCK_SIZE = 8 from rfl]
              omega
            · simp only [show BLOCK_SIZE = 8 from rfl]
              omega
            · intro h0
              have h0' : (cellAt st (i - 1)).items ≠ 0 := h0
              have hd := hdisj (i - 1) (by omega) h0'
              simp only [rangesDisj] at hd
              show item ≠ (cellAt st (i - 1)).items + 8
              omega
          simp only [item_get_size]
          rw [hrd]
          simpa only [item_get_size] using hS.1
        · rw [cellAt_size_insert_item, cellAt_mem_update]
          exact hle
        · intro j hj hne
          rw [insert_item_length] at hj
          have hj' : j < st.data.length := hj
          by_cases hji : j = i - 1
          · rw [hji]
            simp only [cellAt_size_insert_item, cellAt_mem_update,
              cellAt_insert_item_self' _ _ _ _
                (show i - 1 < st.data.length by omega)]
            simp only [rangesDisj, show BLOCK_SIZE = 8 from rfl]
            omega
          · have hnej : i - 1 ≠ j := by omega
            rw [cellAt_insert_item_ne _ _ _ _ hnej,
              cellAt_mem_update] at hne
            have hd := hdisj j hj' hne
            simp only [cellAt_size_insert_item, cellAt_mem_update,
              cellAt_insert_item_ne _ _ _ _ hnej]
            simp only [rangesDisj] at hd ⊢
            omega
      · rename_i hnle
        refine ih _ (i - 1) (item + (cellAt st (i - 4)).size * BLOCK_SIZE)
          n ?_ ?_ ?_ ?_ ?_ ?_
        · exact ladderInv_of_sizes_eq (sizesOf_insert_item _ _ _).symm hinv
        · rw [insert_item_length]
          show i - 1 < st.data.length
          omega
        · intro j hj
          rw [insert_item_length] at hj
          rw [cellAt_size_insert_item, cellAt_mem_update]
          exact hB j hj
        · rw [cellAt_size_insert_item, cellAt_mem_update]
          have hrd : rd (insert_item
              { st with mem := (splitWrite st.mem item
                (cellAt st (i - 4)).size (cellAt st (i - 1)).size) }
              (i - 4) item).mem
              (item + (cellAt st (i - 4)).size * BLOCK_SIZE) =
              rd (splitWrite st.mem item (cellAt st (i - 4)).size
                (cellAt st (i - 1)).size)
                (item + (cellAt st (i - 4)).size * BLOCK_SIZE) := by
            refine rd_insert_item_ne _ _ _ _ ?_ ?_ ?_
            · simp only [show BLOCK_SIZE = 8 from rfl]
              omega
            · simp only [show BLOCK_SIZE = 8 from rfl]
              omega
            · intro h0
              have h0' : (cellAt st (i - 4)).items ≠ 0 := h0
              have hd := hdisj (i - 4) (by omega) h0'
              simp only [rangesDisj] at hd
              show item + (cellAt st (i - 4)).size * BLOCK_SIZE ≠
                (cellAt st (i - 4)).items + 8
              simp only [show BLOCK_SIZE = 8 from rfl]
              omega
          simp only [item_get_size]
          rw [hrd]
          simpa only [item_get_size] using hS.2.1
        · rw [cellAt_size_insert_item, cellAt_mem_update]
          exact hgn
        · intro j hj hne
          rw [insert_item_length] at hj
          have hj' : j < st.data.length := hj
          by_cases hji : j = i - 4
          · rw [hji]
            simp only [cellAt_size_insert_item, cellAt_mem_update,
              cellAt_insert_item_self' _ _ _ _
                (show i - 4 < st.data.length by omega)]
            simp only [rangesDisj, show BLOCK_SIZE = 8 from rfl]
            omega
          · have hnej : i - 4 ≠ j := by omega
            rw [cellAt_insert_item_ne _ _ _ _ hnej,
              cellAt_mem_update] at hne
            have hd := hdisj j hj' hne
            simp only [cellAt_size_insert_item, cellAt_mem_update,
              cellAt_insert_item_ne _ _ _ _ hnej]
            simp only [rangesDisj, show BLOCK_SIZE = 8 from rfl] at hd ⊢
            omega
    · show n ≤ item_get_size st.mem item
      rw [hsz]
      exact hn

theorem item_get_size_set_in_use (m : Mem) (a : Nat) (b : Bool) :
    item_get_size (item_set_in_use m a b) a = item_get_size m a := by
  simp only [item_get_size, item_set_in_use, rd_wr_same]
  exact get_size_set_in_use_w _ _

theorem chainIs_head_mem (m : Mem) (p : Nat) (xs : List Nat)
    (hc : chainIs m p xs) (hp : p ≠ 0) : p ∈ xs := by
  cases xs with
  | nil => exact absurd (hc : p = 0) hp
  | cons a as =>
    obtain ⟨h1, _, _⟩ := hc
    rw [h1]
    exact List.mem_cons_self a as

theorem cellAt_alloc_new_item (st : AllocState) (n k : Nat) :
    cellAt (alloc_new_item st n).1 k = cellAt st k := rfl

theorem take_item_length (st : AllocState) (i : Nat) :
    (take_item st i).1.data.length = st.data.length := by
  simp [take_item, setItems]

theorem sizesBelow_getD {l : List Cell} {B : Nat} (h : sizesBelow l B)
    (j : Nat) (hj : j < l.length) : (l.getD j ⟨0, 0⟩).size < B := by
  rw [List.getD_eq_getElem _ _ hj]
  exact h _ (List.getElem_mem hj)

theorem sizesBelow_cellAt {st : AllocState} {B : Nat}
    (h : sizesBelow st.data B) (j : Nat) (hj : j < st.data.length) :
    (cellAt st j).size < B :=
  sizesBelow_getD h j hj

/-- An allocator state in which every free list is empty satisfies the
table invariant with the all-empty table. -/
theorem TableOk_empty (st : AllocState)
    (h : ∀ i, i < st.data.length → (cellAt st i).items = 0) :
    TableOk st (List.replicate st.data.length []) := by
  have hg : ∀ i : Nat,
      (List.replicate st.data.length ([] : List Nat)).getD i [] = [] := by
    intro i
    rcases Nat.lt_or_ge i st.data.length with hlt | hge
    · rw [List.getD_eq_getElem _ _ (by simpa using hlt)]
      exact List.getElem_replicate _ _
    · rw [List.getD_eq_default _ _ (by simpa using hge)]
  refine ⟨by simp, ?_, ?_, ?_, ?_, ?_⟩
  · intro i hi
    rw [hg]
    show (cellAt st i).items = 0
    exact h i hi
  · intro i hi x hx
    rw [hg] at hx
    exact absurd hx (List.not_mem_nil x)
  · intro i hi x hx
    rw [hg] at hx
    exact absurd hx (List.not_mem_nil x)
  · intro i j hi hj x hx
    rw [hg] at hx
    exact absurd hx (List.not_mem_nil x)
  · intro i hi
    rw [hg]
    exact List.nodup_nil

theorem take_item_fst (st : AllocState) (i : Nat) :
    (take_item st i).1 = setItems
      { st with mem := if item_get_next st.mem (cellAt st i).items ≠ 0 then
          item_set_prev st.mem (item_get_next st.mem (cellAt st i).items) 0
        else st.mem } i (item_get_next st.mem (cellAt st i).items) := rfl

theorem cellAt_take_item_self (st : AllocState) (i : Nat)
    (h : i < st.data.length) :
    cellAt (take_item st i).1 i =
      ⟨(cellAt st i).size, item_get_next st.mem (cellAt st i).items⟩ := by
  rw [take_item_fst, cellAt_setItems_self, cellAt_mem_update]
  exact h

theorem cellAt_take_item_ne (st : AllocState) (i j : Nat) (h : i ≠ j) :
    cellAt (take_item st i).1 j = cellAt st j := by
  rw [take_item_fst, cellAt_setItems_ne _ _ _ _ h, cellAt_mem_update]

/-- C1: coverage of `mem_alloc`.  For a state satisfying the reachable
state invariants (ladder invariant, free-table invariant, modest size
bounds) and a request `x` with `1 ≤ x < 2 ^ 33`, if `mem_alloc`
returns without relocating the cell array, the returned block's header
size is at least `n = ceil((x + HEADER_SIZE) / BLOCK_SIZE)` blocks, so
the returned area holds at least `x` usable bytes. -/
theorem mem_alloc_coverage (fuel : Nat) (st : AllocState) (x : Nat)
    (r : AllocState × Nat) (tb : List (List Nat))
    (h : mem_alloc fuel st x = some r)
    (hrel : r.1.relocations = st.relocations)
    (hinv : ladderInv st.data)
    (htb : TableOk st tb)
    (hB : sizesBelow st.data (2 ^ 31))
    (hx : 1 ≤ x) (hxB : x < 2 ^ 33) :
    (x + HEADER_SIZE + BLOCK_SIZE - 1) / BLOCK_SIZE ≤
      item_get_size r.1.mem (item_from_area r.2) ∧
    x + HEADER_SIZE ≤
      BLOCK_SIZE * item_get_size r.1.mem (item_from_area r.2) := by
  obtain ⟨n0, hn0⟩ :
      ∃ n0, (x + HEADER_SIZE + BLOCK_SIZE - 1) / BLOCK_SIZE = n0 := ⟨_, rfl⟩
  have hn15 : n0 = (x + 15) / 8 := by
    rw [← hn0, show HEADER_SIZE = 8 from rfl, show BLOCK_SIZE = 8 from rfl,
      show x + 8 + 8 - 1 = x + 15 from by omega]
  have hn2 : 2 ≤ n0 := by omega
  have hn31 : n0 < 2 ^ 31 := by omega
  have hharea : ∀ q : Nat, item_from_area (item_get_area q) = q := by
    intro q
    simp [item_from_area, item_get_area]
  have hmain : n0 ≤ item_get_size r.1.mem (item_from_area r.2) := by
    cases fuel with
    | zero => simp [mem_alloc] at h
    | succ f =>
      rw [mem_alloc_succ] at h
      dsimp only at h
      rw [hn0] at h
      by_cases hs : searchIdx st.data n0 = st.data.length
      · -- extension path
        rw [if_pos hs, hs] at h
        rcases hext : extLoop f st (st.data.length - 1) n0 with _ | r2
        · rw [hext] at h
          simp at h
        · rw [hext] at h
          simp only [Option.some.injEq] at h
          have hlen11 : 11 ≤ st.data.length := by
            have := hinv.1.1
            rw [show ARRAY_INIT_SIZE = 11 from rfl] at this
            exact this
          have hrel2 : r2.1.relocations = st.relocations := by
            have hle := (reloc_mono f).2.1 st _ _ r2 hext
            have hsp : r.1.relocations = r2.1.relocations := by
              rw [← h]
              show (split_item _ _ _ _).1.relocations = _
              rw [show ∀ (s : AllocState) (j it nn : Nat),
                (split_item s j it nn).1.relocations = s.relocations from
                fun s j it nn => splitLoop_reloc j s j it nn]
              rfl
            omega
          have hE := extLoop_spec f st (st.data.length - 1) n0 r2 hext hrel2
            hinv (by omega)
          have hF := extLoop_frame f st (st.data.length - 1) n0 r2 hext hrel2
          have hinv2 : ladderInv r2.1.data :=
            (ladder_preserved f).2.1 st (st.data.length - 1) n0 r2 hinv hext
          have hb32 : ∀ j, j < r2.1.data.length →
              (cellAt r2.1 j).size < 2 ^ 32 := by
            intro j hj
            rcases Nat.lt_or_ge j st.data.length with hlt | hge
            · rw [hE.2.2.2.2.1 j hlt]
              have := sizesBelow_cellAt hB j hlt
              omega
            · rcases Nat.lt_or_ge j r2.2 with hlt2 | hge2
              · have := hE.2.2.2.1 j hge hlt2
                omega
              · have hj2 : j = r2.2 := by omega
                have har2 : (cellAt r2.1 j).size =
                    (cellAt r2.1 (j - 1)).size + (cellAt r2.1 (j - 4)).size :=
                  hinv2.2 j hj (by omega)
                have hb1 : (cellAt r2.1 (j - 1)).size < 2 ^ 31 := by
                  rcases Nat.lt_or_ge (j - 1) st.data.length with hl | hg
                  · rw [hE.2.2.2.2.1 _ hl]
                    have := sizesBelow_cellAt hB _ hl
                    omega
                  · have := hE.2.2.2.1 _ hg (by omega)
                    omega
                have hb4 : (cellAt r2.1 (j - 4)).size < 2 ^ 31 := by
                  rcases Nat.lt_or_ge (j - 4) st.data.length with hl | hg
                  · rw [hE.2.2.2.2.1 _ hl]
                    have := sizesBelow_cellAt hB _ hl
                    omega
                  · have := hE.2.2.2.1 _ hg (by omega)
                    omega
                omega
          have hmod : (cellAt r2.1 r2.2).size % 2 ^ 32 =
              (cellAt r2.1 r2.2).size :=
            Nat.mod_eq_of_lt (hb32 r2.2 (by omega))
          have hA := alloc_new_item_spec r2.1
            ((cellAt r2.1 r2.2).size % 2 ^ 32)
            (by rw [hmod]; have := hE.2.2.1; omega)
            (by rw [hmod]; have := hb32 r2.2 (by omega); omega)
          rw [← h]
          dsimp only
          rw [hharea, item_get_size_set_in_use]
          refine splitLoop_size r2.2
            (alloc_new_item r2.1 ((cellAt r2.1 r2.2).size % 2 ^ 32)).1 r2.2
            (alloc_new_item r2.1 ((cellAt r2.1 r2.2).size % 2 ^ 32)).2 n0
            ?_ ?_ ?_ ?_ ?_ ?_
          · exact hinv2
          · show r2.2 < r2.1.data.length
            omega
          · intro j hj
            have hj' : j < r2.1.data.length := hj
            rw [cellAt_alloc_new_item]
            have := hb32 j hj'
            omega
          · rw [cellAt_alloc_new_item, hA.1, hA.2.2.2.2.2.2.1]
            exact hmod
          · rw [cellAt_alloc_new_item]
            exact hE.2.2.1
          · intro j hj hne
            have hj' : j < r2.1.data.length := hj
            rw [cellAt_alloc_new_item] at hne
            simp only [cellAt_alloc_new_item]
            rcases Nat.lt_or_ge j st.data.length with hlt | hge
            · rw [hF.2.2.2.2.2.2.1 j hlt] at hne ⊢
              have hhm := chainIs_head_mem st.mem _ _ (htb.chains j hlt) hne
              have hbd := htb.bounded j hlt _ hhm
              rw [hA.1, hF.2.1]
              simp only [rangesDisj, show WORD_SIZE = 8 from rfl]
              have := hbd.2
              omega
            · exact absurd (hF.2.2.2.2.2.2.2 j hge hj') hne
      · -- direct path
        rw [if_neg hs] at h
        simp only [Option.some.injEq] at h
        obtain ⟨i0, hi0eq⟩ : ∃ i0, searchIdx st.data n0 = i0 := ⟨_, rfl⟩
        rw [hi0eq] at h hs
        have hi0 : i0 < st.data.length :=
          lt_of_le_of_ne (hi0eq ▸ searchIdx_le_length n0 st.data) hs
        have hfound := searchIdx_found n0 st.data
          (by rw [hi0eq]; exact hi0)
        rw [hi0eq] at hfound
        obtain ⟨hfn, hfi⟩ := hfound
        have hch := htb.chains i0 hi0
        rcases htbl : tb.getD i0 [] with _ | ⟨a, as⟩
        · rw [htbl] at hch
          exact absurd (hch : (cellAt st i0).items = 0) hfi
        · rw [htbl] at hch
          obtain ⟨hca, hca0, hcrest⟩ := hch
          have hmem_a : a ∈ tb.getD i0 [] := by
            rw [htbl]
            exact List.mem_cons_self a as
          have hnod := htb.nodups i0 hi0
          rw [htbl] at hnod
          have hanotin : a ∉ as := (List.nodup_cons.1 hnod).1
          have hm3 : 3 ≤ (cellAt st i0).size := ladder_min3 hinv i0 hi0
          have htyped := htb.typed i0 hi0 a hmem_a
          rw [← hca] at hcrest
          have hnextd : item_get_next st.mem (cellAt st i0).items ≠ 0 →
              item_get_next st.mem (cellAt st i0).items ∈ tb.getD i0 [] ∧
              item_get_next st.mem (cellAt st i0).items ≠ a := by
            intro hne
            have hm := chainIs_head_mem _ _ _ hcrest hne
            refine ⟨?_, ?_⟩
            · rw [htbl]
              exact List.mem_cons_of_mem a hm
            · intro hcontra
              rw [hcontra] at hm
              exact hanotin hm
          rw [← h]
          dsimp only
          rw [hharea, item_get_size_set_in_use]
          have htake2 : (take_item st i0).2 = (cellAt st i0).items := rfl
          rw [htake2]
          refine splitLoop_size i0 (take_item st i0).1 i0
            (cellAt st i0).items n0 ?_ ?_ ?_ ?_ ?_ ?_
          · exact ladderInv_of_sizes_eq (sizesOf_take_item st i0).symm hinv
          · rw [take_item_length]
            exact hi0
          · intro j hj
            rw [take_item_length] at hj
            rw [cellAt_size_take_item]
            have := sizesBelow_cellAt hB j hj
            omega
          · rw [cellAt_size_take_item]
            have hrd := rd_take_item_ne st i0 (cellAt st i0).items ?_
            · simp only [item_get_size]
              rw [hrd, hca]
              simpa only [item_get_size] using htyped
            · intro hne
              obtain ⟨hmemn, hnea⟩ := hnextd hne
              have hd := htb.blocksDisj i0 i0 hi0 hi0 _ hmemn a hmem_a
                (Or.inr hnea)
              simp only [rangesDisj] at hd
              rw [hca] at hd ⊢
              omega
          · rw [cellAt_size_take_item]
            exact hfn
          · intro j hj hne
            rw [take_item_length] at hj
            by_cases hji : j = i0
            · rw [hji] at hne ⊢
              rw [cellAt_take_item_self st i0 hi0] at hne
              have hne' : item_get_next st.mem (cellAt st i0).items ≠ 0 := hne
              obtain ⟨hmemn, hnea⟩ := hnextd hne'
              have hd := htb.blocksDisj i0 i0 hi0 hi0 _ hmemn a hmem_a
                (Or.inr hnea)
              rw [cellAt_take_item_self st i0 hi0]
              simp only [rangesDisj] at hd ⊢
              rw [hca] at hd ⊢
              omega
            · rw [cellAt_take_item_ne _ _ _ (fun hc => hji hc.symm)] at hne
              have hhm := chainIs_head_mem st.mem _ _
                (htb.chains j hj) hne
              have hd := htb.blocksDisj j i0 hj hi0 _ hhm a hmem_a
                (Or.inl hji)
              rw [cellAt_take_item_ne _ _ _ (fun hc => hji hc.symm),
                cellAt_size_take_item]
              simp only [rangesDisj] at hd ⊢
              rw [hca]
              omega
  refine ⟨?_, ?_⟩
  · rw [hn0]
    exact hmain
  · rw [show HEADER_SIZE = 8 from rfl, show BLOCK_SIZE = 8 from rfl]
    omega

/-- Witness for C1: the fresh-state `mem_alloc 1` with the all-empty
free table. -/
theorem mem_alloc_coverage_witness :
    ∃ r : AllocState × Nat,
      mem_alloc 50 st0 1 = some r ∧
      (1 + HEADER_SIZE + BLOCK_SIZE - 1) / BLOCK_SIZE ≤
        item_get_size r.1.mem (item_from_area r.2) ∧
      1 + HEADER_SIZE ≤
        BLOCK_SIZE * item_get_size r.1.mem (item_from_area r.2) := by
  have hsome : (mem_alloc 50 st0 1).isSome = true := by decide
  rcases hal : mem_alloc 50 st0 1 with _ | r
  · rw [hal] at hsome
    simp at hsome
  · have hrel : r.1.relocations = st0.relocations := by
      have : (mem_alloc 50 st0 1).map (fun q => q.1.relocations) =
          some 0 := by
        decide
      rw [hal] at this
      simp only [Option.map_some', Option.some.injEq] at this
      rw [this]
      rfl
    have htb : TableOk st0 (List.replicate st0.data.length []) :=
      TableOk_empty st0 (by decide)
    have hmain := mem_alloc_coverage 50 st0 1 r
      (List.replicate st0.data.length []) hal hrel initCells_ladderInv htb
      (by show ∀ c ∈ st0.data, c.size < 2 ^ 31; decide) (by decide)
      (by decide)
    exact ⟨r, rfl, hmain.1, hmain.2⟩

/-! ### Append-only ladder: lengths and sizes across the mutual calls -/

theorem sizes_eq_facts {a b : AllocState} (h : sizesOf a = sizesOf b) :
    a.data.length = b.data.length ∧
    ∀ j, (cellAt a j).size = (cellAt b j).size :=
  ⟨by have := congrArg List.length h; simpa [sizesOf] using this,
   fun j => sizeAt_eq_of_map_eq h j⟩

/-- The cell array is append-only: every call keeps the existing cells'
sizes and can only lengthen the array (`array_inc_size` strictly so),
including through relocation. -/
theorem sizes_mono (fuel : Nat) :
    (∀ st x r, mem_alloc fuel st x = some r →
      st.data.length ≤ r.1.data.length ∧
      ∀ j, j < st.data.length → (cellAt r.1 j).size = (cellAt st j).size) ∧
    (∀ st i n r, extLoop fuel st i n = some r →
      st.data.length ≤ r.1.data.length ∧
      ∀ j, j < st.data.length → (cellAt r.1 j).size = (cellAt st j).size) ∧
    (∀ st r, array_inc_size fuel st = some r →
      st.data.length < r.data.length ∧
      ∀ j, j < st.data.length → (cellAt r j).size = (cellAt st j).size) := by
  induction fuel with
  | zero =>
    refine ⟨?_, ?_, ?_⟩ <;> intro st
    · intro x r h
      simp [mem_alloc] at h
    · intro i n r h
      simp [extLoop] at h
    · intro r h
      simp [array_inc_size] at h
  | succ f ih =>
    obtain ⟨ihA, ihE, ihI⟩ := ih
    refine ⟨?_, ?_, ?_⟩
    · intro st x r h
      rw [mem_alloc_succ] at h
      dsimp only at h
      by_cases hs : searchIdx st.data
          ((x + HEADER_SIZE + BLOCK_SIZE - 1) / BLOCK_SIZE) = st.data.length
      · rw [if_pos hs] at h
        rcases hext : extLoop f st (searchIdx st.data
            ((x + HEADER_SIZE + BLOCK_SIZE - 1) / BLOCK_SIZE) - 1)
            ((x + HEADER_SIZE + BLOCK_SIZE - 1) / BLOCK_SIZE) with _ | r2
        · rw [hext] at h
          simp at h
        · rw [hext] at h
          simp only [Option.some.injEq] at h
          have h2 := ihE st _ _ r2 hext
          have hsz : sizesOf r.1 = sizesOf r2.1 := by
            rw [← h]
            show sizesOf (split_item _ _ _ _).1 = _
            rw [sizesOf_split_item]
            rfl
          obtain ⟨hl, hp⟩ := sizes_eq_facts hsz
          refine ⟨by omega, ?_⟩
          intro j hj
          rw [hp j]
          exact h2.2 j hj
      · rw [if_neg hs] at h
        simp only [Option.some.injEq] at h
        have hsz : sizesOf r.1 = sizesOf st := by
          rw [← h]
          show sizesOf (split_item _ _ _ _).1 = _
          rw [sizesOf_split_item, sizesOf_take_item]
        obtain ⟨hl, hp⟩ := sizes_eq_facts hsz
        exact ⟨by omega, fun j hj => hp j⟩
    · intro st i n r h
      rw [extLoop_succ] at h
      rcases hinc : array_inc_size f st with _ | st1
      · rw [hinc] at h
        simp at h
      · rw [hinc] at h
        dsimp only at h
        have h1 := ihI st st1 hinc
        by_cases hlt : (cellAt st1 (i + 1)).size < n
        · rw [if_pos hlt] at h
          have h2 := ihE st1 (i + 1) n r h
          refine ⟨by omega, ?_⟩
          intro j hj
          rw [h2.2 j (by omega), h1.2 j hj]
        · rw [if_neg hlt] at h
          simp only [Option.some.injEq] at h
          have hr : r.1 = st1 := by rw [← h]
          rw [hr]
          exact ⟨by omega, h1.2⟩
    · intro st r h
      rw [array_inc_size_succ] at h
      dsimp only at h
      by_cases hcap : st.data.length + 1 = st.capacity
      · rw [if_pos (by simpa using hcap)] at h
        rcases hal : mem_alloc f { st with
            data := st.data ++ [⟨(cellAt st (st.data.length - 1)).size +
              (cellAt st (st.data.length - 4)).size, 0⟩]
            capacity := 2 * st.capacity
            relocations := st.relocations + 1 } (2 * st.capacity * 16)
            with _ | r3
        · rw [hal] at h
          simp at h
        · rw [hal] at h
          dsimp only at h
          have h3 := ihA _ _ r3 hal
          split at h
          · simp at h
          · rename_i c hmf
            simp only [Option.some.injEq] at h
            have hsz := sizesOf_mem_free f _ _ c hmf
            obtain ⟨hl4, hp4⟩ := sizes_eq_facts hsz
            have hl4' : c.st.data.length = r3.1.data.length := hl4
            have hp4' : ∀ j, (cellAt c.st j).size = (cellAt r3.1 j).size := hp4
            have hl3 : st.data.length + 1 ≤ r3.1.data.length := by
              have := h3.1
              simpa using this
            rw [← h]
            refine ⟨by omega, ?_⟩
            intro j hj
            rw [hp4' j, h3.2 j (by simpa using (by omega : j < st.data.length + 1))]
            simp only [cellAt]
            rw [List.getD_append _ _ _ _ hj]
      · rw [if_neg (by simpa using hcap)] at h
        simp only [Option.some.injEq] at h
        rw [← h]
        refine ⟨by simp, ?_⟩
        intro j hj
        simp only [cellAt]
        rw [List.getD_append _ _ _ _ hj]

/-- The do-while of the extension, unconditionally (relocations
allowed): the returned index is past the entry index, in range, its
term satisfies the request, and every index tested before it had a
term below the request. -/
theorem extLoop_walk (fuel : Nat) : ∀ (st : AllocState) (i n : Nat)
    (r : AllocState × Nat), extLoop fuel st i n = some r →
    i + 1 ≤ st.data.length →
    i < r.2 ∧ r.2 < r.1.data.length ∧
    n ≤ (cellAt r.1 r.2).size ∧
    (∀ j, i < j → j < r.2 → (cellAt r.1 j).size < n) := by
  induction fuel with
  | zero =>
    intro st i n r h _
    simp [extLoop] at h
  | succ f ih =>
    intro st i n r h hi
    rw [extLoop_succ] at h
    rcases hinc : array_inc_size f st with _ | st1
    · rw [hinc] at h
      simp at h
    · rw [hinc] at h
      dsimp only at h
      have h1 := (sizes_mono f).2.2 st st1 hinc
      by_cases hlt : (cellAt st1 (i + 1)).size < n
      · rw [if_pos hlt] at h
        have h2 := ih st1 (i + 1) n r h (by omega)
        have h3 := (sizes_mono f).2.1 st1 (i + 1) n r h
        refine ⟨by omega, h2.2.1, h2.2.2.1, ?_⟩
        intro j hj1 hj2
        rcases Nat.lt_or_ge (i + 1) j with hc | hc
        · exact h2.2.2.2 j hc hj2
        · have hj : j = i + 1 := by omega
          rw [hj, h3.2 (i + 1) (by omega)]
          exact hlt
      · rw [if_neg hlt] at h
        simp only [Option.some.injEq] at h
        have hr1 : r.1 = st1 := by rw [← h]
        have hr2 : r.2 = i + 1 := by rw [← h]
        rw [hr1, hr2]
        refine ⟨by omega, by omega, by omega, ?_⟩
        intro j hj1 hj2
        omega

/-! ### Claim C9 (amended theorem) -/

/-- C9 (amended): when `mem_alloc` finds no ladder cell with both size
at least `n` (the required block count) and a non-empty free list (the
search index equals the array length), the ladder always grows by at
least one term — even when the last existing term is already at least
`n`.  The do-while walks the indices starting right after the old end
and stops at the first tested index whose term is at least `n`; every
index tested before it had a term below `n`; the pre-existing terms
are unchanged; and the chunk is drawn, after the growth, with exactly
the term at the stopping index (truncated to `unsigned int` as in the
source), so the chunk's size in blocks is a term already present in
the ladder.  If the cell array relocates during the growth, the
relocation may append further terms beyond the stopping index before
the chunk is drawn. -/
theorem mem_alloc_extension_policy (fuel : Nat) (st : AllocState) (x : Nat)
    (r : AllocState × Nat) (h : mem_alloc fuel st x = some r)
    (hs : searchIdx st.data ((x + HEADER_SIZE + BLOCK_SIZE - 1) / BLOCK_SIZE) =
      st.data.length)
    (hinv : ladderInv st.data) :
    ∃ istar,
      st.data.length ≤ istar ∧ istar < r.1.data.length ∧
      st.data.length < r.1.data.length ∧
      (x + HEADER_SIZE + BLOCK_SIZE - 1) / BLOCK_SIZE ≤
        (cellAt r.1 istar).size ∧
      (∀ j, st.data.length ≤ j → j < istar →
        (cellAt r.1 j).size <
          (x + HEADER_SIZE + BLOCK_SIZE - 1) / BLOCK_SIZE) ∧
      (∀ j, j < st.data.length →
        (cellAt r.1 j).size = (cellAt st j).size) ∧
      ∃ rest, r.1.chunks =
        ((cellAt r.1 istar).size % 2 ^ 32) :: rest := by
  cases fuel with
  | zero => simp [mem_alloc] at h
  | succ f =>
    rw [mem_alloc_succ] at h
    dsimp only at h
    rw [if_pos hs, hs] at h
    rcases hext : extLoop f st (st.data.length - 1)
        ((x + HEADER_SIZE + BLOCK_SIZE - 1) / BLOCK_SIZE) with _ | r2
    · rw [hext] at h
      simp at h
    · rw [hext] at h
      simp only [Option.some.injEq] at h
      have hlen11 : 11 ≤ st.data.length := by
        have := hinv.1.1
        rw [show ARRAY_INIT_SIZE = 11 from rfl] at this
        exact this
      have hwalk := extLoop_walk f st (st.data.length - 1)
        ((x + HEADER_SIZE + BLOCK_SIZE - 1) / BLOCK_SIZE) r2 hext (by omega)
      have hme := (sizes_mono f).2.1 st (st.data.length - 1)
        ((x + HEADER_SIZE + BLOCK_SIZE - 1) / BLOCK_SIZE) r2 hext
      have hsz : sizesOf r.1 = sizesOf r2.1 := by
        rw [← h]
        show sizesOf (split_item _ _ _ _).1 = _
        rw [sizesOf_split_item]
        rfl
      obtain ⟨hl, hp⟩ := sizes_eq_facts hsz
      have hchunks : r.1.chunks =
          ((cellAt r2.1 r2.2).size % 2 ^ 32) :: r2.1.chunks := by
        rw [← h]
        show (split_item _ _ _ _).1.chunks = _
        rw [show ∀ (s : AllocState) (j it nn : Nat),
          (split_item s j it nn).1.chunks = s.chunks from
          fun s j it nn => splitLoop_chunks j s j it nn]
        rfl
      refine ⟨r2.2, by omega, by omega, by omega, ?_, ?_, ?_, ?_⟩
      · rw [hp r2.2]
        exact hwalk.2.2.1
      · intro j hj1 hj2
        rw [hp j]
        exact hwalk.2.2.2 j (by omega) hj2
      · intro j hj
        rw [hp j]
        exact hme.2 j hj
      · refine ⟨r2.1.chunks, ?_⟩
        rw [hp r2.2]
        exact hchunks

/-- Witness for C9 (amended): the fresh-state `mem_alloc 1`. -/
theorem mem_alloc_extension_policy_witness :
    ∃ r : AllocState × Nat,
      mem_alloc 50 st0 1 = some r ∧
      ∃ istar,
        st0.data.length ≤ istar ∧ istar < r.1.data.length ∧
        st0.data.length < r.1.data.length ∧
        (1 + HEADER_SIZE + BLOCK_SIZE - 1) / BLOCK_SIZE ≤
          (cellAt r.1 istar).size ∧
        ∃ rest, r.1.chunks =
          ((cellAt r.1 istar).size % 2 ^ 32) :: rest := by
  have hsome : (mem_alloc 50 st0 1).isSome = true := by decide
  rcases hal : mem_alloc 50 st0 1 with _ | r
  · rw [hal] at hsome
    simp at hsome
  · obtain ⟨istar, h1, h2, h3, h4, h5, h6, h7⟩ :=
      mem_alloc_extension_policy 50 st0 1 r hal (by decide)
        initCells_ladderInv
    exact ⟨r, rfl, istar, h1, h2, h3, h4, h7⟩
